import Mathlib

/-!
Shallow embedding of the FolderForge repository (src/folderforge.py and
src/start.py) and proofs about its claims.

The repository has two components:
* an encoder `write_tree` that serialises a directory tree into a text
  artifact (identical, up to an equivalent spelling of one conditional, in
  both source files), and
* two materialisers `create_structure_from_file` (one per source file) that
  parse such an artifact and create directories and empty files.

The filesystem is modelled as an association list from paths (lists of
path components) to entries; directory trees as an inductive type whose
child order stands for `iterdir` order.  Glob matching (`fnmatch.fnmatch`)
is an external collaborator in the spec and is abstracted as a boolean
function parameter.  Entry names are modelled as single path components.
All definitions are fuelled or structural so that they evaluate inside the
kernel; fuel is always instantiated with a proven-sufficient bound.
-/

/-! ### Python string primitives, on `List Char` / `String` -/

/-- Whitespace for Python `str.strip` / `str.rstrip` (space, tab, newline,
carriage return, vertical tab, form feed), by code point. -/
def pyIsSpace (c : Char) : Bool :=
  c.toNat = 32 || c.toNat = 9 || c.toNat = 10 || c.toNat = 13 || c.toNat = 11 || c.toNat = 12

/-- Python `str.rstrip()`: drop trailing whitespace. -/
def pyRstrip (s : String) : String :=
  String.mk ((s.data.reverse.dropWhile pyIsSpace).reverse)

/-- Python `str.strip()`: drop whitespace at both ends. -/
def pyStrip (s : String) : String :=
  String.mk (((s.data.dropWhile pyIsSpace).reverse.dropWhile pyIsSpace).reverse)

/-- Python `str.rstrip("/")`: drop all trailing slashes. -/
def pyRstripSlashes (s : String) : String :=
  String.mk ((s.data.reverse.dropWhile (fun c => c = '/')).reverse)

/-- Python `str.rstrip("\n")`: drop trailing newline characters. -/
def pyRstripNl (s : String) : String :=
  String.mk ((s.data.reverse.dropWhile (fun c => c = '\n')).reverse)

/-- Python `s.endswith(c)` for a one-character suffix. -/
def pyEndsWith (s : String) (c : Char) : Bool :=
  s.data.getLast? = some c

/-- Python `prefixPart.count("  ")`: non-overlapping occurrences of two
consecutive spaces, scanning from the left. -/
def countSp2 : List Char → Nat
  | ' ' :: ' ' :: rest => 1 + countSp2 rest
  | _ :: rest => countSp2 rest
  | [] => 0

/-- Python `"/".join` over path components (`PurePath.as_posix` of a
relative path). -/
def joinPosix : List String → String
  | [] => ""
  | [s] => s
  | s :: rest => s ++ "/" ++ joinPosix rest

/-- Python `str.lower()` (restricted to the ASCII case mapping). -/
def pyLower (s : String) : String :=
  String.mk (s.data.map Char.toLower)

/-- Lexicographic `≤` on code points, Python's `str` comparison. -/
def strLeb : List Char → List Char → Bool
  | [], _ => true
  | _ :: _, [] => false
  | a :: as, b :: bs =>
    if a.toNat < b.toNat then true
    else if b.toNat < a.toNat then false
    else strLeb as bs

/-! ### Filesystem model -/

/-- A filesystem path, as its list of components below the model root. -/
abbrev FPath := List String

/-- A filesystem entry: a directory, or a file with its content. -/
inductive FSEntry where
  | dir
  | file (content : String)
  deriving DecidableEq, Repr

/-- The filesystem: an association list from paths to entries, in creation
order. -/
abbrev FS := List (FPath × FSEntry)

/-- Look up the entry at a path. -/
def fsFind (fs : FS) (p : FPath) : Option FSEntry :=
  match fs with
  | [] => none
  | (q, e) :: rest => if q = p then some e else fsFind rest p

/-- One `mkdir(exist_ok=True)` step: create a directory if the path is
free, succeed silently if a directory is already there, fail
(`FileExistsError`) if a file occupies the path. -/
def mkdir1 (fs : FS) (p : FPath) : Option FS :=
  match fsFind fs p with
  | none => some (fs ++ [(p, FSEntry.dir)])
  | some FSEntry.dir => some fs
  | some (FSEntry.file _) => none

/-- Helper for `mkdirp`: create `done ++ take i segs` for every prefix. -/
def mkdirpAux (fs : FS) (done : FPath) : List String → Option FS
  | [] => some fs
  | seg :: rest =>
    match mkdir1 fs (done ++ [seg]) with
    | none => none
    | some fs1 => mkdirpAux fs1 (done ++ [seg]) rest

/-- Python `Path.mkdir(parents=True, exist_ok=True)`: create the path and
every missing ancestor as directories; fail if any of them is a file. -/
def mkdirp (fs : FS) (p : FPath) : Option FS :=
  mkdirpAux fs [] p

/-- Python `open(target, "a")` then close: create an empty file if the
path is free, preserve an existing file unchanged, fail
(`IsADirectoryError`) on a directory. -/
def touchA (fs : FS) (p : FPath) : Option FS :=
  match fsFind fs p with
  | none => some (fs ++ [(p, FSEntry.file "")])
  | some (FSEntry.file _) => some fs
  | some FSEntry.dir => none

/-! ### Directory tree model -/

/-- A directory tree as the encoder observes it; the child list order is
the `iterdir` order. -/
inductive FTree where
  | dir (name : String) (children : List FTree)
  | file (name : String)

/-- Name of an entry (`Path.name`). -/
def FTree.name : FTree → String
  | .dir n _ => n
  | .file n => n

/-- Kind of an entry (`Path.is_dir()`). -/
def FTree.isDir : FTree → Bool
  | .dir _ _ => true
  | .file _ => false

/-- Children of an entry (`Path.iterdir()`; a file has none). -/
def FTree.children : FTree → List FTree
  | .dir _ c => c
  | .file _ => []

mutual

/-- Size of a tree, used as recursion fuel. -/
def FTree.sz : FTree → Nat
  | .dir _ ch => 1 + szL ch
  | .file _ => 1

/-- Size of a child list, used as recursion fuel. -/
def szL : List FTree → Nat
  | [] => 1
  | t :: ts => 1 + FTree.sz t + szL ts

end

/-! ### Encoder (`write_tree`, identical in both source files) -/

/-- Source `should_ignore_dir(dir_path, root, patterns)`: an empty pattern
list never matches; otherwise some pattern `fnmatch`-matches the bare name
or the root-relative posix path (the pattern with trailing slashes
stripped).  `fnm` abstracts `fnmatch.fnmatch`; `rel` is the entry's path
relative to the scan root (so its last component is the entry's name). -/
def should_ignore_dir (fnm : String → String → Bool) (rel : List String)
    (patterns : List String) : Bool :=
  if patterns.isEmpty then false
  else
    patterns.any fun p =>
      fnm (rel.getLastD "") p || fnm (joinPosix rel) (pyRstripSlashes p)

/-- Sort key comparison of `sorted(..., key=lambda e: (not e.is_dir(),
e.name.lower()))`: lexicographic on the pair, `False < True`. -/
def entryLeB (a b : FTree) : Bool :=
  ((!(!a.isDir)) && !b.isDir) ||
    ((!a.isDir) == (!b.isDir) && strLeb (pyLower a.name).data (pyLower b.name).data)

/-- Propositional form of `entryLeB`, for `List.insertionSort`. -/
def entryLe (a b : FTree) : Prop := entryLeB a b = true

instance : DecidableRel entryLe := fun a b => by
  unfold entryLe; infer_instance

/-- Source line `entries = sorted((e for e in dir_path.iterdir() if not
(e.is_dir() and should_ignore_dir(...))), key=...)`: the filtered children
in a stable sort by `(not is_dir, lower name)`. -/
def sortedEntries (fnm : String → String → Bool) (ps : List String)
    (rel : List String) (children : List FTree) : List FTree :=
  List.insertionSort entryLe
    (children.filter fun e => !(e.isDir && should_ignore_dir fnm (rel ++ [e.name]) ps))

/-- Argument of the encoder's recursion `step`: either a directory being
scanned (`_tree(dir_path, prefix, current_depth)`) or the suffix of its
entry list still to be emitted in the `for` loop.  Both carry the
root-relative path, the line prefix and the current depth. -/
abbrev StepArg := (FTree × List String × String × Nat) ⊕ (List FTree × List String × String × Nat)

/-- Fuelled recursion of `_tree` inside `write_tree`.  The `inl` case is
the body of `_tree`: stop when `max_depth is not None and current_depth >
max_depth`, otherwise loop over the sorted, filtered entries.  The `inr`
case is the `for` loop: skip an ignored directory (the redundant re-check
in the source), emit the entry's line (`"└─ "` for the last entry, `"├─ "`
otherwise, name, trailing "/" for a directory), and for a directory recurse
with the prefix extended by `"│  "` (not last) or `"   "` (last). -/
def step (fnm : String → String → Bool) (ps : List String) (md : Option Int) :
    Nat → StepArg → List String
  | 0, _ => []
  | f + 1, .inl (t, rel, pfx, d) =>
    if (match md with | some k => ((d : Int) > k : Bool) | none => false) then []
    else step fnm ps md f (.inr (sortedEntries fnm ps rel t.children, rel, pfx, d))
  | _ + 1, .inr ([], _, _, _) => []
  | f + 1, .inr (e :: rest, rel, pfx, d) =>
    if e.isDir && should_ignore_dir fnm (rel ++ [e.name]) ps then
      step fnm ps md f (.inr (rest, rel, pfx, d))
    else
      let line := pfx ++ (if rest.isEmpty then "└─ " else "├─ ") ++ e.name ++
        (if e.isDir then "/" else "")
      let sub :=
        if e.isDir then
          step fnm ps md f
            (.inl (e, rel ++ [e.name], pfx ++ (if rest.isEmpty then "   " else "│  "), d + 1))
        else []
      line :: (sub ++ step fnm ps md f (.inr (rest, rel, pfx, d)))

/-- Source `write_tree(root, output_file, ignore_patterns, verbose,
max_depth)`, returning the artifact's lines (the source writes
`"\n".join(lines)` to the output file).  The root line `root.name + "/"`
is emitted when `max_depth is None or max_depth >= 0`; the recursion runs
when `max_depth is None or max_depth > 0`. -/
def write_tree (fnm : String → String → Bool) (ps : List String)
    (max_depth : Option Int) (root : FTree) : List String :=
  (match max_depth with
    | none => [root.name ++ "/"]
    | some k => if 0 ≤ k then [root.name ++ "/"] else []) ++
  (match max_depth with
    | none => step fnm ps max_depth (FTree.sz root + 1) (.inl (root, [], "", 0))
    | some k =>
      if 0 < k then step fnm ps max_depth (FTree.sz root + 1) (.inl (root, [], "", 0))
      else [])

/-! ### Materialiser of src/folderforge.py (`create_structure_from_file`) -/

namespace FolderForge

/-- Per-line parsing inside folderforge.py's `create_structure_from_file`,
applied to the already right-stripped, non-empty line: `is_dir` is a
trailing "/", trailing slashes are stripped, and if a `"─"` occurs the
line is split at its first occurrence into a prefix and a stripped name,
with `depth = prefix.count("│") + prefix.count("  ") // 2`; otherwise the
whole line is the name at depth 0.  Returns `(depth, name, is_dir)`. -/
def ffParseLine (line : String) : Nat × String × Bool :=
  let is_dir := pyEndsWith line '/'
  let core := pyRstripSlashes line
  if core.data.contains '─' then
    let pre := core.data.takeWhile (fun c => c != '─')
    let post := (core.data.dropWhile (fun c => c != '─')).tail
    (pre.count '│' + countSp2 pre / 2, pyStrip (String.mk post), is_dir)
  else
    (0, core, is_dir)

/-- The loop of folderforge.py's `create_structure_from_file` over the
remaining lines, carrying the line index `i`, `base_dir`, `dirs_stack` and
the filesystem.  Empty (after `rstrip`) lines are skipped.  On line 0,
when the root is not stripped and the line names a directory, the root
directory is created under the destination, becomes `base_dir` and is
pushed.  Otherwise the stack is truncated to `depth`, the parent is
`base_dir` when `depth == 0` or the stack is empty and the top frame
otherwise, and the target is created (directory: `mkdir(parents=True,
exist_ok=True)`, pop to `depth`, push; file: create parent directories
then `open(target, "a")`). -/
def ffLoop (dest : FPath) (strip_root : Bool) :
    List String → Nat → FPath → List FPath → FS → Option FS
  | [], _, _, _, fs => some fs
  | raw :: rest, i, base, stack, fs =>
    let line := pyRstrip raw
    if line = "" then ffLoop dest strip_root rest (i + 1) base stack fs
    else
      match ffParseLine line with
      | (depth, name, is_dir) =>
        if i = 0 && !strip_root && is_dir then
          let base2 := dest ++ [name]
          match mkdirp fs base2 with
          | none => none
          | some fs2 => ffLoop dest strip_root rest (i + 1) base2 (stack ++ [base2]) fs2
        else if depth > stack.length then
          ffLoop dest strip_root rest (i + 1) base stack fs
        else
          let stack2 := if depth < stack.length then stack.take depth else stack
          let parent := if depth = 0 then base else
            match stack2.getLast? with
            | some p => p
            | none => base
          let target := parent ++ [name]
          if is_dir then
            match mkdirp fs target with
            | none => none
            | some fs2 =>
              ffLoop dest strip_root rest (i + 1) base (stack2.take depth ++ [target]) fs2
          else
            match mkdirp fs target.dropLast with
            | none => none
            | some fs2 =>
              match touchA fs2 target with
              | none => none
              | some fs3 => ffLoop dest strip_root rest (i + 1) base stack2 fs3

/-- Source `create_structure_from_file(file_path, dest_root, strip_root,
verbose)` of folderforge.py, over the artifact's lines: `base_dir` starts
as the destination root, the stack empty. -/
def create_structure_from_file (lines : List String) (dest_root : FPath)
    (strip_root : Bool) (fs : FS) : Option FS :=
  ffLoop dest_root strip_root lines 0 dest_root [] fs

end FolderForge

/-! ### Parser and materialiser of src/start.py -/

namespace Start

/-- Greedy count of leading `(?:│  |   )` units of `LINE_RE`'s prefix
group (the two three-character alternatives are disjoint, so the star is
deterministic up to backtracking over the count). -/
def maxUnits : List Char → Nat
  | '│' :: ' ' :: ' ' :: rest => maxUnits rest + 1
  | ' ' :: ' ' :: ' ' :: rest => maxUnits rest + 1
  | _ => 0

/-- The connector group `(?P<conn>├── |└── |├─ |└─ )?`: the alternative
that matches at the current position, in the pattern's order (at most one
can). -/
def connAt : List Char → Option (List Char)
  | '├' :: '─' :: '─' :: ' ' :: _ => some ['├', '─', '─', ' ']
  | '└' :: '─' :: '─' :: ' ' :: _ => some ['└', '─', '─', ' ']
  | '├' :: '─' :: ' ' :: _ => some ['├', '─', ' ']
  | '└' :: '─' :: ' ' :: _ => some ['└', '─', ' ']
  | _ => none

/-- Match of `(?P<name>[^/]+?)(?P<slash>/?)$` against the rest of the
line: the name is the rest without a single trailing slash, must be
non-empty and must contain no other slash. -/
def nameSlash (l : List Char) : Option (List Char × Bool) :=
  if l.isEmpty then none
  else if !(l.contains '/') then some (l, false)
  else if l.getLast? = some '/' && !(l.dropLast.contains '/') && !l.dropLast.isEmpty then
    some (l.dropLast, true)
  else none

/-- One backtracking attempt of `LINE_RE` with exactly `r` prefix units
consumed: try the connector alternatives first, fall back to no connector.
Returns `(prefix, conn, name, slash)` on success. -/
def tryAt (l : List Char) (r : Nat) : Option (List Char × Option (List Char) × List Char × Bool) :=
  let pre := l.take (3 * r)
  let rest := l.drop (3 * r)
  match connAt rest with
  | some c =>
    match nameSlash (rest.drop c.length) with
    | some (n, s) => some (pre, some c, n, s)
    | none =>
      match nameSlash rest with
      | some (n, s) => some (pre, none, n, s)
      | none => none
  | none =>
    match nameSlash rest with
    | some (n, s) => some (pre, none, n, s)
    | none => none

/-- Backtracking over the greedy prefix: try `r` units, then `r - 1`, ...,
then zero. -/
def reSearch (l : List Char) : Nat → Option (List Char × Option (List Char) × List Char × Bool)
  | 0 => tryAt l 0
  | r + 1 =>
    match tryAt l (r + 1) with
    | some res => some res
    | none => reSearch l r

/-- Full match of `LINE_RE = ^(?P<prefix>(?:│  |   )*)(?P<conn>├── |└── |├─
|└─ )?(?P<name>[^/]+?)(?P<slash>/?)$` with Python's backtracking
semantics. -/
def lineReMatch (l : List Char) : Option (List Char × Option (List Char) × List Char × Bool) :=
  reSearch l (maxUnits l)

/-- Python `prefix.replace("│  ", "   ")` of `parse_line`: each
continuation unit becomes three spaces (length-preserving). -/
def replUnits : List Char → List Char
  | '│' :: ' ' :: ' ' :: rest => ' ' :: ' ' :: ' ' :: replUnits rest
  | c :: rest => c :: replUnits rest
  | [] => []

/-- Character class `[a-zA-Z0-9_-]` of the root-line fallback pattern. -/
def wordChar (c : Char) : Bool :=
  (97 ≤ c.toNat && c.toNat ≤ 122) || (65 ≤ c.toNat && c.toNat ≤ 90) ||
    (48 ≤ c.toNat && c.toNat ≤ 57) || c.toNat = 95 || c.toNat = 45

/-- Fallback pattern `^[a-zA-Z0-9_-]+/?$` applied to the stripped line. -/
def rootFallback (l : List Char) : Bool :=
  let core := if l.getLast? = some '/' then l.dropLast else l
  !core.isEmpty && core.all wordChar

/-- Source `parse_line` of start.py.  A blank line parses to `none`.
Otherwise `LINE_RE` is tried on the line without trailing newlines; on
failure the root fallback applies to the stripped line.  On a match the
name group is stripped, the line is a root line iff both connector and
prefix groups are empty, and the depth is the length of the prefix with
`"│  "` replaced by `"   "` (length-preserving) divided by 3.  Returns
`(is_root_line, depth, name, is_dir)`. -/
def parse_line (line : String) : Option (Bool × Nat × String × Bool) :=
  if pyStrip line = "" then none
  else
    match lineReMatch (pyRstripNl line).data with
    | none =>
      let s := pyStrip line
      if rootFallback s.data then
        some (true, 0, pyRstripSlashes s, pyEndsWith s '/')
      else none
    | some (pre, conn, nameRaw, slash) =>
      let name := pyStrip (String.mk nameRaw)
      let isRoot := conn.isNone && pre.isEmpty
      let depth := if isRoot then 0 else (replUnits pre).length / 3
      let name2 := if slash && pyEndsWith name '/' then String.mk name.data.dropLast else name
      some (isRoot, depth, name2, slash)

/-- The loop of start.py's `create_structure_from_file` over the remaining
lines (the enumeration index is unused by its body).  Unparseable lines
are skipped.  A line parsed as a root line, when the first line was one,
re-binds `base_dir` (unless the root is stripped, in which case it is
ignored).  Other lines truncate the stack to their depth; the parent is
`base_dir` at depth 0 and the top frame otherwise (an empty stack at
positive depth is Python's `IndexError`, which aborts the run). -/
def stLoop (dest : FPath) (strip_root : Bool) (flr : Bool) :
    List String → FPath → List FPath → FS → Option FS
  | [], _, _, fs => some fs
  | raw :: rest, base, stack, fs =>
    match parse_line raw with
    | none => stLoop dest strip_root flr rest base stack fs
    | some (isRoot, depth, name, is_dir) =>
      if isRoot && flr then
        if !strip_root then
          let base2 := dest ++ [name]
          match mkdirp fs base2 with
          | none => none
          | some fs2 => stLoop dest strip_root flr rest base2 (stack ++ [base2]) fs2
        else stLoop dest strip_root flr rest base stack fs
      else if depth > stack.length then
        stLoop dest strip_root flr rest base stack fs
      else
        let stack2 := if depth < stack.length then stack.take depth else stack
        match (if depth = 0 then some base else stack2.getLast?) with
        | none => none
        | some parent =>
          let target := parent ++ [name]
          if is_dir then
            match mkdirp fs target with
            | none => none
            | some fs2 =>
              stLoop dest strip_root flr rest base (stack2.take depth ++ [target]) fs2
          else
            match mkdirp fs target.dropLast with
            | none => none
            | some fs2 =>
              match touchA fs2 target with
              | none => none
              | some fs3 => stLoop dest strip_root flr rest base stack2 fs3

/-- Source `create_structure_from_file(file_path, dest_root, strip_root,
verbose)` of start.py: `first_line_is_root` is pre-computed from the first
line, then the loop runs with `base_dir = dest_root` and an empty
stack. -/
def create_structure_from_file (lines : List String) (dest_root : FPath)
    (strip_root : Bool) (fs : FS) : Option FS :=
  let flr :=
    match lines with
    | [] => false
    | l :: _ =>
      match parse_line l with
      | some (true, _, _, _) => true
      | _ => false
  stLoop dest_root strip_root flr lines dest_root [] fs

end Start

/-! ### Fuel bookkeeping for the encoder's recursion -/

/-- Fuel needed by a `step` argument. -/
def stepReq : StepArg → Nat
  | .inl (t, _, _, _) => FTree.sz t + 1
  | .inr (l, _, _, _) => szL l

theorem szL_pos (l : List FTree) : 1 ≤ szL l := by
  cases l with
  | nil => simp [szL]
  | cons h t => simp only [szL]; omega

theorem sz_pos (t : FTree) : 1 ≤ FTree.sz t := by
  cases t <;> simp only [FTree.sz] <;> omega

theorem szL_cons (t : FTree) (ts : List FTree) : szL (t :: ts) = 1 + FTree.sz t + szL ts := rfl

theorem szL_perm {l l2 : List FTree} (h : l.Perm l2) : szL l = szL l2 := by
  induction h with
  | nil => rfl
  | cons x _ ih => simp [szL_cons, ih]
  | swap x y l => simp [szL_cons]; omega
  | trans _ _ ih1 ih2 => omega

theorem szL_filter (p : FTree → Bool) (l : List FTree) : szL (l.filter p) ≤ szL l := by
  induction l with
  | nil => simp
  | cons a l ih =>
    by_cases h : p a = true
    · simp [List.filter_cons, h, szL_cons]; omega
    · simp only [List.filter_cons, h]
      simp only [Bool.false_eq_true, if_false, szL_cons]
      have := sz_pos a
      omega

theorem szL_sortedEntries (fnm : String → String → Bool) (ps : List String)
    (rel : List String) (ch : List FTree) : szL (sortedEntries fnm ps rel ch) ≤ szL ch := by
  unfold sortedEntries
  calc szL (List.insertionSort entryLe
        (ch.filter fun e => !(e.isDir && should_ignore_dir fnm (rel ++ [e.name]) ps)))
      = szL (ch.filter fun e => !(e.isDir && should_ignore_dir fnm (rel ++ [e.name]) ps)) :=
        szL_perm (List.perm_insertionSort _ _)
    _ ≤ szL ch := szL_filter _ _

theorem szL_children (t : FTree) : szL t.children ≤ FTree.sz t := by
  cases t <;> simp only [FTree.children, FTree.sz, szL] <;> omega

/-- `step` does not depend on the fuel, once the fuel covers its
argument's requirement. -/
theorem stepCongr (fnm : String → String → Bool) (ps : List String) (md : Option Int) :
    ∀ f1 f2 x, stepReq x ≤ f1 → stepReq x ≤ f2 →
      step fnm ps md f1 x = step fnm ps md f2 x := by
  intro f1
  induction f1 with
  | zero =>
    intro f2 x h1 _
    exfalso
    rcases x with ⟨t, rel, pfx, d⟩ | ⟨l, rel, pfx, d⟩
    · simp [stepReq] at h1
    · have := szL_pos l; simp [stepReq] at h1; omega
  | succ f ih =>
    intro f2 x h1 h2
    rcases x with ⟨t, rel, pfx, d⟩ | ⟨l, rel, pfx, d⟩
    · have hreq : stepReq (.inl (t, rel, pfx, d)) = FTree.sz t + 1 := rfl
      rcases f2 with _ | f2
      · omega
      · simp only [step]
        have hb : szL (sortedEntries fnm ps rel t.children) ≤ FTree.sz t :=
          le_trans (szL_sortedEntries _ _ _ _) (szL_children t)
        rw [ih f2 (.inr (sortedEntries fnm ps rel t.children, rel, pfx, d))
          (by simpa [stepReq] using le_trans hb (by omega))
          (by simpa [stepReq] using le_trans hb (by omega))]
    · rcases f2 with _ | f2
      · have := szL_pos l; simp [stepReq] at h2; omega
      · rcases l with _ | ⟨e, rest⟩
        · simp [step]
        · have hr : szL (e :: rest) = 1 + FTree.sz e + szL rest := rfl
          have he : FTree.sz e + 1 ≤ f ∧ FTree.sz e + 1 ≤ f2 := by
            have := szL_pos rest; simp [stepReq] at h1 h2; omega
          have hrest : szL rest ≤ f ∧ szL rest ≤ f2 := by
            have := sz_pos e; simp [stepReq] at h1 h2; omega
          simp only [step]
          rw [ih f2 (.inr (rest, rel, pfx, d)) (by simpa [stepReq] using hrest.1)
            (by simpa [stepReq] using hrest.2)]
          rw [ih f2 (.inl (e, rel ++ [e.name], pfx ++ (if rest.isEmpty then "   " else "│  "),
              d + 1)) (by simpa [stepReq] using he.1) (by simpa [stepReq] using he.2)]

/-- Lines `_tree(dir_path, prefix, current_depth)` returns, at the
canonical fuel. -/
def treeLines (fnm : String → String → Bool) (ps : List String) (md : Option Int)
    (t : FTree) (rel : List String) (pfx : String) (d : Nat) : List String :=
  step fnm ps md (FTree.sz t + 1) (.inl (t, rel, pfx, d))

/-- Lines the `for` loop of `_tree` emits for the remaining entries, at
the canonical fuel. -/
def entryLines (fnm : String → String → Bool) (ps : List String) (md : Option Int)
    (l : List FTree) (rel : List String) (pfx : String) (d : Nat) : List String :=
  step fnm ps md (szL l) (.inr (l, rel, pfx, d))

theorem treeLines_eq (fnm : String → String → Bool) (ps : List String) (md : Option Int)
    (t : FTree) (rel : List String) (pfx : String) (d : Nat) :
    treeLines fnm ps md t rel pfx d =
      if (match md with | some k => ((d : Int) > k : Bool) | none => false) then []
      else entryLines fnm ps md (sortedEntries fnm ps rel t.children) rel pfx d := by
  unfold treeLines entryLines
  simp only [step]
  split
  · rfl
  · exact stepCongr fnm ps md _ _ _
      (by simpa [stepReq] using le_trans (szL_sortedEntries fnm ps rel t.children) (szL_children t))
      (by simp [stepReq])

theorem entryLines_nil (fnm : String → String → Bool) (ps : List String) (md : Option Int)
    (rel : List String) (pfx : String) (d : Nat) :
    entryLines fnm ps md [] rel pfx d = [] := rfl

theorem entryLines_cons (fnm : String → String → Bool) (ps : List String) (md : Option Int)
    (e : FTree) (rest : List FTree) (rel : List String) (pfx : String) (d : Nat) :
    entryLines fnm ps md (e :: rest) rel pfx d =
      if e.isDir && should_ignore_dir fnm (rel ++ [e.name]) ps then
        entryLines fnm ps md rest rel pfx d
      else
        (pfx ++ (if rest.isEmpty then "└─ " else "├─ ") ++ e.name ++
          (if e.isDir then "/" else "")) ::
        ((if e.isDir then
            treeLines fnm ps md e (rel ++ [e.name])
              (pfx ++ (if rest.isEmpty then "   " else "│  ")) (d + 1)
          else []) ++ entryLines fnm ps md rest rel pfx d) := by
  unfold entryLines treeLines
  have hsz : szL (e :: rest) = (FTree.sz e + szL rest) + 1 := by
    simp [szL_cons]; omega
  rw [hsz]
  simp only [step]
  have h1 : step fnm ps md (FTree.sz e + szL rest) (.inr (rest, rel, pfx, d)) =
      step fnm ps md (szL rest) (.inr (rest, rel, pfx, d)) :=
    stepCongr fnm ps md _ _ _ (by simp only [stepReq]; omega) (by simp [stepReq])
  have h2 : step fnm ps md (FTree.sz e + szL rest)
        (.inl (e, rel ++ [e.name], pfx ++ (if rest.isEmpty then "   " else "│  "), d + 1)) =
      step fnm ps md (FTree.sz e + 1)
        (.inl (e, rel ++ [e.name], pfx ++ (if rest.isEmpty then "   " else "│  "), d + 1)) := by
    have := szL_pos rest
    exact stepCongr fnm ps md _ _ _ (by simp only [stepReq]; omega) (by simp [stepReq])
  rw [h1, h2]
  simp only [step]

theorem write_tree_eq (fnm : String → String → Bool) (ps : List String)
    (max_depth : Option Int) (root : FTree) :
    write_tree fnm ps max_depth root =
      (match max_depth with
        | none => [root.name ++ "/"]
        | some k => if 0 ≤ k then [root.name ++ "/"] else []) ++
      (match max_depth with
        | none => treeLines fnm ps max_depth root [] "" 0
        | some k => if 0 < k then treeLines fnm ps max_depth root [] "" 0 else []) := rfl

/-! ### Concrete inputs used by the claims -/

/-- Concrete stand-in for `fnmatch.fnmatch` when no pattern is in play. -/
def fnmFalse : String → String → Bool := fun _ _ => false

/-- Tree `root/` containing `a/` containing file `f`: the smallest input
that breaks folderforge.py's depth recovery. -/
def rtTree : FTree := FTree.dir "root" [FTree.dir "a" [FTree.file "f"]]

/-- Artifact of the spec's strip-root scenario. -/
def stripRootArtifact : List String :=
  ["proj/", "├─ src/", "│  └─ main.ext", "└─ README.md"]

/-- Artifact whose third line has a corrupted prefix (one space after the
continuation glyph instead of two). -/
def malformedArtifact : List String :=
  ["proj/", "├─ a/", "│ └─ x", "└─ b.txt"]

/-! ### C1, C2, C3, C9: evaluations at the failing inputs -/

/-- C1.  Round-trip evaluated on the tree `root/{a/{f}}`.  The encoder
emits `["root/", "└─ a/", "   └─ f"]`; materialising that artifact (no
strip-root, empty destination) with src/start.py reproduces exactly the
original relative paths and kinds under `root`, but with
src/folderforge.py the line `"   └─ f"` parses to depth 0 (its prefix
counts `0 + 3 // 2 = 1` two-space pairs, then `1 / 2 = 0`), so `f` is
created beside `a` instead of inside it: the round-trip property fails on
src/folderforge.py's materialiser. -/
theorem c1_roundtrip_eval :
    write_tree fnmFalse [] none rtTree = ["root/", "└─ a/", "   └─ f"] ∧
    Start.create_structure_from_file ["root/", "└─ a/", "   └─ f"] [] false [] =
      some [(["root"], FSEntry.dir), (["root", "a"], FSEntry.dir),
        (["root", "a", "f"], FSEntry.file "")] ∧
    FolderForge.create_structure_from_file ["root/", "└─ a/", "   └─ f"] [] false [] =
      some [(["root"], FSEntry.dir), (["root", "a"], FSEntry.dir),
        (["root", "f"], FSEntry.file "")] := by
  refine ⟨by decide, by decide, by decide⟩

/-- C2.  Strip-root materialisation of the spec's scenario artifact into
an empty destination: src/start.py creates exactly `src/` (directory),
`src/main.ext` and `README.md` (empty files) and no `proj/` directory,
as the claim states; src/folderforge.py, however, also creates a `proj/`
directory, because with `strip_root` the root line falls through to the
ordinary per-line processing. -/
theorem c2_strip_root_eval :
    Start.create_structure_from_file stripRootArtifact [] true [] =
      some [(["src"], FSEntry.dir), (["src", "main.ext"], FSEntry.file ""),
        (["README.md"], FSEntry.file "")] ∧
    FolderForge.create_structure_from_file stripRootArtifact [] true [] =
      some [(["proj"], FSEntry.dir), (["src"], FSEntry.dir),
        (["src", "main.ext"], FSEntry.file ""), (["README.md"], FSEntry.file "")] := by
  refine ⟨by decide, by decide⟩

/-- C3.  Depth recovery on the line `"      └─ x"`, whose prefix is two
blank three-space units (display width 6, so the claimed depth is
`6 / 3 = 2`): src/start.py's `parse_line` returns depth 2, but
src/folderforge.py computes `0 + (3 / 2) = 1`; on `"│  │  └─ c.txt"`
(two continuation units, claimed depth 2) folderforge.py computes
`2 + (2 / 2) = 3`. -/
theorem c3_depth_eval :
    Start.parse_line "      └─ x" = some (false, 2, "x", false) ∧
    ("      ".length / 3 = 2) ∧
    FolderForge.ffParseLine "      └─ x" = (1, "x", false) ∧
    FolderForge.ffParseLine "│  │  └─ c.txt" = (3, "c.txt", false) := by
  refine ⟨by decide, by decide, by decide, by decide⟩

/-- C9.  Materialising the artifact whose third line `"│ └─ x"` has a
corrupted prefix: the claim requires that exactly this line is skipped and
`b.txt` still lands under `proj`.  Instead, src/start.py parses the
corrupted line as a root line (its regex matches with empty prefix and no
connector), creates a directory named `"│ └─ x"` under the destination,
re-binds the base directory to it, and then creates `b.txt` inside that
directory; src/folderforge.py parses the corrupted line at depth 1 and
creates a file `x` under `proj/a`. -/
theorem c9_malformed_eval :
    Start.create_structure_from_file malformedArtifact [] false [] =
      some [(["proj"], FSEntry.dir), (["proj", "a"], FSEntry.dir),
        (["│ └─ x"], FSEntry.dir), (["│ └─ x", "b.txt"], FSEntry.file "")] ∧
    FolderForge.create_structure_from_file malformedArtifact [] false [] =
      some [(["proj"], FSEntry.dir), (["proj", "a"], FSEntry.dir),
        (["proj", "a", "x"], FSEntry.file ""), (["proj", "b.txt"], FSEntry.file "")] := by
  refine ⟨by decide, by decide⟩

/-! ### Counterexamples for C5, C6, C10 -/

/-- Tree with directories `B` and `a` and file `z.txt` under the root, in
`iterdir` order `B`, `z.txt`, `a`. -/
def c6Tree : FTree := FTree.dir "root" [FTree.dir "B" [], FTree.file "z.txt", FTree.dir "a" []]

/-- C5, counterexample.  For the tree `root/{x}` and `maxDepth = 0` the
encoder emits the root line only: no line for the immediate child `x`
appears, contradicting the claim's "including k = 0". -/
theorem c5_depth0_children_cex :
    write_tree fnmFalse [] (some 0) (FTree.dir "root" [FTree.file "x"]) = ["root/"] ∧
    ¬ ∃ c, (c = "├─ " ∨ c = "└─ ") ∧
      (c ++ "x") ∈ write_tree fnmFalse [] (some 0) (FTree.dir "root" [FTree.file "x"]) := by
  refine ⟨by decide, ?_⟩
  rintro ⟨c, rfl | rfl, hm⟩ <;> revert hm <;> decide

/-- C6, counterexample.  For a root containing directories `B` and `a` and
file `z.txt`, the encoder emits `a/` before `B/` (case-insensitive order
compares `"b"` with `"a"`), not `B/` before `a/` as the claim's example
states. -/
theorem c6_ordering_cex :
    write_tree fnmFalse [] none c6Tree = ["root/", "├─ a/", "├─ B/", "└─ z.txt"] ∧
    ¬ (write_tree fnmFalse [] none c6Tree).indexOf "├─ B/" <
      (write_tree fnmFalse [] none c6Tree).indexOf "├─ a/" := by
  refine ⟨by decide, by decide⟩

/-- C10, counterexample.  On the strip-root scenario artifact with the
strip-root flag, the two materialisers create different path sets: the one
in src/folderforge.py creates a `proj` directory, the one in src/start.py
does not. -/
theorem c10_equiv_cex :
    FolderForge.create_structure_from_file stripRootArtifact [] true [] =
      some [(["proj"], FSEntry.dir), (["src"], FSEntry.dir),
        (["src", "main.ext"], FSEntry.file ""), (["README.md"], FSEntry.file "")] ∧
    Start.create_structure_from_file stripRootArtifact [] true [] =
      some [(["src"], FSEntry.dir), (["src", "main.ext"], FSEntry.file ""),
        (["README.md"], FSEntry.file "")] ∧
    (["proj"], FSEntry.dir) ∈ [(["proj"], FSEntry.dir), (["src"], FSEntry.dir),
        (["src", "main.ext"], FSEntry.file ""), (["README.md"], FSEntry.file "")] ∧
    (["proj"], FSEntry.dir) ∉ [(["src"], FSEntry.dir),
        (["src", "main.ext"], FSEntry.file ""), (["README.md"], FSEntry.file "")] := by
  refine ⟨by decide, by decide, by decide, by decide⟩

/-! ### C4: depth cutoff -/

/-- A string made of `n` fixed-width marker columns: each is a
continuation unit `"│  "` or a blank unit `"   "`.  The depth a prefix
encodes is its number of units, `displayWidth / 3`. -/
inductive UnitsStr : String → Nat → Prop where
  | nil : UnitsStr "" 0
  | cont (p : String) (n : Nat) : UnitsStr p n → UnitsStr (p ++ "│  ") (n + 1)
  | blank (p : String) (n : Nat) : UnitsStr p n → UnitsStr (p ++ "   ") (n + 1)

/-- Shape of every line the encoder's recursion emits under `maxDepth = k`:
a prefix of at most `k` marker columns, a connector, and a remainder. -/
theorem step_depth_bound (fnm : String → String → Bool) (ps : List String) (k : Nat) :
    ∀ f : Nat,
      (∀ t rel pfx d, UnitsStr pfx d →
        ∀ l ∈ step fnm ps (some (k : Int)) f (.inl (t, rel, pfx, d)),
          ∃ p n c r, UnitsStr p n ∧ n ≤ k ∧ (c = "├─ " ∨ c = "└─ ") ∧ l = p ++ c ++ r) ∧
      (∀ es rel pfx d, UnitsStr pfx d → d ≤ k →
        ∀ l ∈ step fnm ps (some (k : Int)) f (.inr (es, rel, pfx, d)),
          ∃ p n c r, UnitsStr p n ∧ n ≤ k ∧ (c = "├─ " ∨ c = "└─ ") ∧ l = p ++ c ++ r) := by
  intro f
  induction f with
  | zero =>
    constructor
    · intro t rel pfx d _ l hl
      simp [step] at hl
    · intro es rel pfx d _ _ l hl
      simp [step] at hl
  | succ f ih =>
    constructor
    · intro t rel pfx d hu l hl
      simp only [step] at hl
      split at hl
      · simp at hl
      · rename_i hguard
        have hd : d ≤ k := by
          simp only [decide_eq_true_eq] at hguard
          exact_mod_cast Int.not_lt.mp hguard
        exact ih.2 _ rel pfx d hu hd l hl
    · intro es rel pfx d hu hd l hl
      cases es with
      | nil => simp [step] at hl
      | cons e rest =>
        simp only [step] at hl
        split at hl
        · exact ih.2 rest rel pfx d hu hd l hl
        · rcases List.mem_cons.mp hl with hline | hrec
          · refine ⟨pfx, d, (if rest.isEmpty then "└─ " else "├─ "), 
              e.name ++ (if e.isDir then "/" else ""), hu, hd, ?_, ?_⟩
            · by_cases hre : rest.isEmpty <;> simp [hre]
            · rw [hline]
              simp [String.append_assoc]
          · rcases List.mem_append.mp hrec with hsub | htail
            · by_cases hdir : e.isDir = true
              · simp only [hdir, if_true] at hsub
                have hu2 : UnitsStr (pfx ++ (if rest.isEmpty then "   " else "│  ")) (d + 1) := by
                  by_cases hre : rest.isEmpty <;> simp only [hre, if_true, if_false]
                  · exact UnitsStr.blank pfx d hu
                  · exact UnitsStr.cont pfx d hu
                exact ih.1 e (rel ++ [e.name]) _ (d + 1) hu2 l hsub
              · simp only [hdir] at hsub
                simp at hsub
            · exact ih.2 rest rel pfx d hu hd l htail

/-- C4.  With `maxDepth = k ≥ 0` (here `k : ℕ`) every emitted non-root
line is a prefix of at most `k` marker columns followed by a connector
and a remainder, so its depth `prefixWidth / 3` is at most `k`; with
`maxDepth = 0` the artifact is exactly the root line; with a negative
`maxDepth` the artifact is empty. -/
theorem c4_depth_cutoff (fnm : String → String → Bool) (ps : List String)
    (t : FTree) (k m : Nat) :
    (∀ l ∈ (write_tree fnm ps (some (k : Int)) t).tail,
      ∃ p n c r, UnitsStr p n ∧ n ≤ k ∧ (c = "├─ " ∨ c = "└─ ") ∧ l = p ++ c ++ r) ∧
    write_tree fnm ps (some 0) t = [t.name ++ "/"] ∧
    write_tree fnm ps (some (Int.negSucc m)) t = [] := by
  refine ⟨?_, ?_, ?_⟩
  · intro l hl
    have h0 : (0 : Int) ≤ (k : Int) := Int.ofNat_nonneg k
    simp only [write_tree, h0, if_true] at hl
    by_cases hk : (0 : Int) < (k : Int)
    · simp only [hk, if_true, List.singleton_append, List.tail_cons] at hl
      exact (step_depth_bound fnm ps k (FTree.sz t + 1)).1 t [] "" 0 UnitsStr.nil l hl
    · simp only [hk, if_false, List.append_nil, List.tail_cons] at hl
      simp at hl
  · simp [write_tree]
  · have h1 : ¬ ((0 : Int) ≤ Int.negSucc m) := (Int.negSucc_lt_zero m).not_le
    have h2 : ¬ ((0 : Int) < Int.negSucc m) := by omega
    simp [write_tree, h1, h2]

/-! ### C5: depth-0 children inclusion (amended to maxDepth at least 1) -/

theorem str_nil_append (s : String) : "" ++ s = s := rfl

/-- Every entry of the loop's list that survives the ignore check gets a
line: its prefix, a connector, its name, and "/" iff it is a directory. -/
theorem entryLines_mem (fnm : String → String → Bool) (ps : List String) (md : Option Int) :
    ∀ (es : List FTree) (rel : List String) (pfx : String) (d : Nat) (e : FTree),
      e ∈ es → !(e.isDir && should_ignore_dir fnm (rel ++ [e.name]) ps) = true →
      ∃ c, (c = "├─ " ∨ c = "└─ ") ∧
        (pfx ++ c ++ e.name ++ (if e.isDir then "/" else "")) ∈
          entryLines fnm ps md es rel pfx d := by
  intro es
  induction es with
  | nil =>
    intro rel pfx d e he
    simp at he
  | cons a rest ih =>
    intro rel pfx d e he hne
    rw [entryLines_cons]
    rcases List.mem_cons.mp he with rfl | hmem
    · have hfalse : (e.isDir && should_ignore_dir fnm (rel ++ [e.name]) ps) = false := by
        revert hne
        cases (e.isDir && should_ignore_dir fnm (rel ++ [e.name]) ps) <;> simp
      simp only [hfalse, Bool.false_eq_true, if_false]
      exact ⟨if rest.isEmpty then "└─ " else "├─ ",
        by by_cases hre : rest.isEmpty <;> simp [hre], List.mem_cons_self _ _⟩
    · obtain ⟨c, hc, hm⟩ := ih rel pfx d e hmem hne
      by_cases hig : (a.isDir && should_ignore_dir fnm (rel ++ [a.name]) ps) = true
      · simp only [hig, if_true]
        exact ⟨c, hc, hm⟩
      · simp only [Bool.not_eq_true] at hig
        simp only [hig, Bool.false_eq_true, if_false]
        exact ⟨c, hc, List.mem_cons_of_mem _ (List.mem_append_right _ hm)⟩

/-- C5, amended.  For every `maxDepth = k + 1 ≥ 1`, the encoder's output
includes a line for every non-ignored immediate child of the root (its
connector, its name, and "/" iff it is a directory); with `maxDepth = 0`
this fails, since only the root line is emitted
(`c5_depth0_children_cex`). -/
theorem c5_depth0_children_amended (fnm : String → String → Bool) (ps : List String)
    (t : FTree) (k : Nat) :
    ∀ e ∈ t.children, !(e.isDir && should_ignore_dir fnm ([] ++ [e.name]) ps) = true →
      ∃ c, (c = "├─ " ∨ c = "└─ ") ∧
        (c ++ e.name ++ (if e.isDir then "/" else "")) ∈
          write_tree fnm ps (some ((k : Int) + 1)) t := by
  intro e he hne
  have hfs : e ∈ sortedEntries fnm ps [] t.children :=
    (List.perm_insertionSort entryLe _).mem_iff.mpr (List.mem_filter.mpr ⟨he, by simpa using hne⟩)
  obtain ⟨c, hc, hm⟩ :=
    entryLines_mem fnm ps (some ((k : Int) + 1)) (sortedEntries fnm ps [] t.children)
      [] "" 0 e hfs (by simpa using hne)
  refine ⟨c, hc, ?_⟩
  rw [write_tree_eq]
  have hk0 : (0 : Int) ≤ (k : Int) + 1 := by omega
  have hk1 : (0 : Int) < (k : Int) + 1 := by omega
  simp only [hk0, hk1, if_true]
  refine List.mem_append_right _ ?_
  rw [treeLines_eq]
  have hg : ((((0 : Nat) : Int) > (k : Int) + 1 : Bool)) = false := by
    simp only [decide_eq_false_iff_not]
    omega
  simp only [hg, Bool.false_eq_true, if_false]
  have : ("" ++ c ++ e.name ++ (if e.isDir then "/" else "")) =
      (c ++ e.name ++ (if e.isDir then "/" else "")) := by
    rw [str_nil_append c]
  rw [← this]
  exact hm

/-- C5, witness: at the tree `root/{x}` and `maxDepth = 0 + 1`, the child
`x` gets a line. -/
theorem c5_depth0_children_witness :
    ∃ c, (c = "├─ " ∨ c = "└─ ") ∧
      (c ++ (FTree.file "x").name ++ (if (FTree.file "x").isDir then "/" else "")) ∈
        write_tree fnmFalse [] (some (((0 : Nat) : Int) + 1)) (FTree.dir "root" [FTree.file "x"]) :=
  c5_depth0_children_amended fnmFalse [] (FTree.dir "root" [FTree.file "x"]) 0
    (FTree.file "x") (by simp [FTree.children]) (by decide)

/-! ### C6: ordering (amended: `a/` before `B/` before `z.txt`) -/

theorem strLeb_cons_iff (x y : Char) (xs ys : List Char) :
    strLeb (x :: xs) (y :: ys) = true ↔
      x.toNat < y.toNat ∨ (x.toNat = y.toNat ∧ strLeb xs ys = true) := by
  simp only [strLeb]
  split_ifs with h1 h2
  · simp [h1]
  · simp only [Bool.false_eq_true, false_iff]
    rintro (h | ⟨h, -⟩) <;> omega
  · have hxy : x.toNat = y.toNat := by omega
    simp [hxy]

theorem strLeb_total : ∀ a b : List Char, strLeb a b = true ∨ strLeb b a = true := by
  intro a
  induction a with
  | nil => intro b; left; rfl
  | cons x xs ih =>
    intro b
    cases b with
    | nil => right; rfl
    | cons y ys =>
      rcases Nat.lt_trichotomy x.toNat y.toNat with h | h | h
      · exact Or.inl ((strLeb_cons_iff x y xs ys).mpr (Or.inl h))
      · rcases ih ys with h2 | h2
        · exact Or.inl ((strLeb_cons_iff x y xs ys).mpr (Or.inr ⟨h, h2⟩))
        · exact Or.inr ((strLeb_cons_iff y x ys xs).mpr (Or.inr ⟨h.symm, h2⟩))
      · exact Or.inr ((strLeb_cons_iff y x ys xs).mpr (Or.inl h))

theorem strLeb_trans : ∀ a b c : List Char,
    strLeb a b = true → strLeb b c = true → strLeb a c = true := by
  intro a
  induction a with
  | nil => intro b c _ _; rfl
  | cons x xs ih =>
    intro b c hab hbc
    cases b with
    | nil => simp [strLeb] at hab
    | cons y ys =>
      cases c with
      | nil => simp [strLeb] at hbc
      | cons z zs =>
        rcases (strLeb_cons_iff x y xs ys).mp hab with h1 | ⟨h1, h1s⟩ <;>
          rcases (strLeb_cons_iff y z ys zs).mp hbc with h2 | ⟨h2, h2s⟩
        · exact (strLeb_cons_iff x z xs zs).mpr (Or.inl (by omega))
        · exact (strLeb_cons_iff x z xs zs).mpr (Or.inl (by omega))
        · exact (strLeb_cons_iff x z xs zs).mpr (Or.inl (by omega))
        · exact (strLeb_cons_iff x z xs zs).mpr (Or.inr ⟨by omega, ih ys zs h1s h2s⟩)

instance : IsTotal FTree entryLe := by
  constructor
  intro a b
  unfold entryLe entryLeB
  cases ha : a.isDir <;> cases hb : b.isDir <;> simp [ha, hb] <;>
    exact strLeb_total (pyLower a.name).data (pyLower b.name).data

instance : IsTrans FTree entryLe := by
  constructor
  intro a b c hab hbc
  unfold entryLe entryLeB at hab hbc ⊢
  cases ha : a.isDir <;> cases hb : b.isDir <;> cases hc : c.isDir <;>
    simp [ha, hb, hc] at hab hbc ⊢ <;>
    exact strLeb_trans _ _ _ hab hbc

/-- What one sorted-comparison step means: directories never follow
files, and within a kind the lower-cased names are in order. -/
theorem entryLe_imp (a b : FTree) (h : entryLe a b) :
    (b.isDir = true → a.isDir = true) ∧
    (a.isDir = b.isDir → strLeb (pyLower a.name).data (pyLower b.name).data = true) := by
  unfold entryLe entryLeB at h
  cases ha : a.isDir <;> cases hb : b.isDir <;> simp [ha, hb] at h ⊢ <;> exact h

/-- C6, amended.  For every directory the encoder visits, the emitted
entry list is pairwise ordered with all sub-directories before all files
and each kind sorted case-insensitively by name; on the concrete root
containing directories `B` and `a` and file `z.txt` the emitted order is
therefore `a/`, then `B/`, then `z.txt` (case-insensitively `"a" < "b"`),
not `B/` first as the claim's example says. -/
theorem c6_ordering_amended (fnm : String → String → Bool) (ps : List String)
    (rel : List String) (ch : List FTree) :
    (sortedEntries fnm ps rel ch).Pairwise (fun a b =>
      (b.isDir = true → a.isDir = true) ∧
      (a.isDir = b.isDir → strLeb (pyLower a.name).data (pyLower b.name).data = true)) ∧
    write_tree fnmFalse [] none c6Tree = ["root/", "├─ a/", "├─ B/", "└─ z.txt"] := by
  constructor
  · exact (List.sorted_insertionSort entryLe _).imp (fun h => entryLe_imp _ _ h)
  · decide

/-! ### C7: ignore filtering -/

/-- Spec-side description of ignore filtering, stated for comparison with
the encoder: the child list with every directory that matches an ignore
rule removed together with its whole subtree (fuelled; `rel` is the
parent's root-relative path). -/
def pruneCh (fnm : String → String → Bool) (ps : List String) :
    Nat → List String → List FTree → List FTree
  | 0, _, _ => []
  | _ + 1, _, [] => []
  | f + 1, rel, e :: rest =>
    match e with
    | .file n => .file n :: pruneCh fnm ps f rel rest
    | .dir n ch =>
      if should_ignore_dir fnm (rel ++ [n]) ps then pruneCh fnm ps f rel rest
      else .dir n (pruneCh fnm ps f (rel ++ [n]) ch) :: pruneCh fnm ps f rel rest

theorem pruneChCongr (fnm : String → String → Bool) (ps : List String) :
    ∀ f1 f2 rel l, szL l ≤ f1 → szL l ≤ f2 →
      pruneCh fnm ps f1 rel l = pruneCh fnm ps f2 rel l := by
  intro f1
  induction f1 with
  | zero =>
    intro f2 rel l h1 _
    have := szL_pos l
    omega
  | succ f ih =>
    intro f2 rel l h1 h2
    rcases f2 with _ | f2
    · have := szL_pos l; omega
    · cases l with
      | nil => rfl
      | cons e rest =>
        have hb : FTree.sz e + szL rest ≤ f ∧ FTree.sz e + szL rest ≤ f2 := by
          rw [szL_cons] at h1 h2; omega
        have hrest : szL rest ≤ f ∧ szL rest ≤ f2 := by
          have := sz_pos e; omega
        cases e with
        | file n =>
          simp only [pruneCh]
          rw [ih f2 rel rest hrest.1 hrest.2]
        | dir n ch =>
          have hch : szL ch ≤ f ∧ szL ch ≤ f2 := by
            have h3 : FTree.sz (.dir n ch) = 1 + szL ch := rfl
            have := szL_pos rest
            omega
          simp only [pruneCh]
          rw [ih f2 rel rest hrest.1 hrest.2, ih f2 (rel ++ [n]) ch hch.1 hch.2]

/-- Pruned child list at the canonical fuel. -/
def pruneChildren (fnm : String → String → Bool) (ps : List String)
    (rel : List String) (l : List FTree) : List FTree :=
  pruneCh fnm ps (szL l) rel l

/-- Spec-side pruning of a whole entry whose root-relative path is `rel`:
a file is kept as is, a directory keeps its name and prunes its
children. -/
def pruneTreeAt (fnm : String → String → Bool) (ps : List String)
    (rel : List String) : FTree → FTree
  | .file n => .file n
  | .dir n ch => .dir n (pruneChildren fnm ps rel ch)

theorem pruneTreeAt_name (fnm : String → String → Bool) (ps : List String)
    (rel : List String) (t : FTree) : (pruneTreeAt fnm ps rel t).name = t.name := by
  cases t <;> rfl

theorem pruneTreeAt_isDir (fnm : String → String → Bool) (ps : List String)
    (rel : List String) (t : FTree) : (pruneTreeAt fnm ps rel t).isDir = t.isDir := by
  cases t <;> rfl

/-- The pruned list is the filtered original with every surviving entry
pruned in place. -/
theorem pruneCh_eq (fnm : String → String → Bool) (ps : List String) :
    ∀ f rel l, szL l ≤ f →
      pruneCh fnm ps f rel l =
        (l.filter fun e => !(e.isDir && should_ignore_dir fnm (rel ++ [e.name]) ps)).map
          (fun e => pruneTreeAt fnm ps (rel ++ [e.name]) e) := by
  intro f
  induction f with
  | zero =>
    intro rel l h
    have := szL_pos l
    omega
  | succ f ih =>
    intro rel l h
    cases l with
    | nil => rfl
    | cons e rest =>
      have hrest : szL rest ≤ f := by
        rw [szL_cons] at h
        have := sz_pos e
        omega
      cases e with
      | file n =>
        have hstep : pruneCh fnm ps (f + 1) rel (FTree.file n :: rest) =
            FTree.file n :: pruneCh fnm ps f rel rest := rfl
        have hcond : (!((FTree.file n).isDir &&
            should_ignore_dir fnm (rel ++ [(FTree.file n).name]) ps)) = true := by
          simp [FTree.isDir]
        rw [hstep, ih rel rest hrest, List.filter_cons, if_pos hcond, List.map_cons]
        rfl
      | dir n ch =>
        have hch : szL ch ≤ f := by
          have h3 : FTree.sz (.dir n ch) = 1 + szL ch := rfl
          rw [szL_cons] at h
          have := szL_pos rest
          omega
        cases hig : should_ignore_dir fnm (rel ++ [n]) ps with
        | true =>
          have hstep : pruneCh fnm ps (f + 1) rel (FTree.dir n ch :: rest) =
              pruneCh fnm ps f rel rest := by
            simp only [pruneCh, hig, if_true]
          have hcond : ¬ ((!((FTree.dir n ch).isDir &&
              should_ignore_dir fnm (rel ++ [(FTree.dir n ch).name]) ps)) = true) := by
            simp [FTree.isDir, FTree.name, hig]
          rw [hstep, ih rel rest hrest, List.filter_cons, if_neg hcond]
        | false =>
          have hstep : pruneCh fnm ps (f + 1) rel (FTree.dir n ch :: rest) =
              FTree.dir n (pruneCh fnm ps f (rel ++ [n]) ch) :: pruneCh fnm ps f rel rest := by
            simp only [pruneCh, hig, Bool.false_eq_true, if_false]
          have hcond : (!((FTree.dir n ch).isDir &&
              should_ignore_dir fnm (rel ++ [(FTree.dir n ch).name]) ps)) = true := by
            simp [FTree.isDir, FTree.name, hig]
          rw [hstep, ih rel rest hrest, List.filter_cons, if_pos hcond, List.map_cons,
            pruneChCongr fnm ps f (szL ch) (rel ++ [n]) ch hch le_rfl]
          rfl

theorem pruneChildren_eq (fnm : String → String → Bool) (ps : List String)
    (rel : List String) (l : List FTree) :
    pruneChildren fnm ps rel l =
      (l.filter fun e => !(e.isDir && should_ignore_dir fnm (rel ++ [e.name]) ps)).map
        (fun e => pruneTreeAt fnm ps (rel ++ [e.name]) e) :=
  pruneCh_eq fnm ps (szL l) rel l le_rfl

theorem should_ignore_dir_nil (fnm : String → String → Bool) (rel : List String) :
    should_ignore_dir fnm rel [] = false := rfl

theorem entryLeB_prune (fnm : String → String → Bool) (ps : List String)
    (rel1 rel2 : List String) (a b : FTree) :
    entryLeB (pruneTreeAt fnm ps rel1 a) (pruneTreeAt fnm ps rel2 b) = entryLeB a b := by
  simp [entryLeB, pruneTreeAt_name, pruneTreeAt_isDir]

theorem orderedInsert_map (g : FTree → FTree)
    (hg : ∀ a b, entryLeB (g a) (g b) = entryLeB a b) (a : FTree) :
    ∀ l, List.orderedInsert entryLe (g a) (l.map g) = (List.orderedInsert entryLe a l).map g := by
  intro l
  induction l with
  | nil => rfl
  | cons b l ih =>
    simp only [List.map_cons, List.orderedInsert]
    by_cases h : entryLe a b
    · have h2 : entryLe (g a) (g b) := by
        unfold entryLe at h ⊢
        rw [hg]
        exact h
      simp [h, h2]
    · have h2 : ¬ entryLe (g a) (g b) := by
        unfold entryLe at h ⊢
        rw [hg]
        exact h
      simp [h, h2, ih]

theorem insertionSort_map (g : FTree → FTree)
    (hg : ∀ a b, entryLeB (g a) (g b) = entryLeB a b) :
    ∀ l, List.insertionSort entryLe (l.map g) = (List.insertionSort entryLe l).map g := by
  intro l
  induction l with
  | nil => rfl
  | cons a l ih =>
    simp only [List.map_cons, List.insertionSort, ih]
    exact orderedInsert_map g hg a _

/-- Sorting with no ignore patterns is the bare stable sort. -/
theorem sortedEntries_nil_ps (fnm : String → String → Bool) (rel : List String)
    (l : List FTree) : sortedEntries fnm [] rel l = List.insertionSort entryLe l := by
  unfold sortedEntries
  congr 1
  simp [should_ignore_dir_nil]

theorem sortedEntries_prune (fnm : String → String → Bool) (ps : List String)
    (rel : List String) (ch : List FTree) :
    sortedEntries fnm [] rel (pruneChildren fnm ps rel ch) =
      (sortedEntries fnm ps rel ch).map (fun e => pruneTreeAt fnm ps (rel ++ [e.name]) e) := by
  rw [sortedEntries_nil_ps, pruneChildren_eq]
  unfold sortedEntries
  exact insertionSort_map _ (fun a b => entryLeB_prune fnm ps _ _ a b) _

theorem mem_sortedEntries_pred (fnm : String → String → Bool) (ps : List String)
    (rel : List String) (ch : List FTree) (e : FTree)
    (h : e ∈ sortedEntries fnm ps rel ch) :
    !(e.isDir && should_ignore_dir fnm (rel ++ [e.name]) ps) = true := by
  simpa using (List.mem_filter.mp ((List.perm_insertionSort entryLe _).mem_iff.mp h)).2

/-- The encoder over patterns `ps` emits exactly what the encoder with no
patterns emits over the pruned tree. -/
theorem step_prune (fnm : String → String → Bool) (ps : List String) (md : Option Int) :
    ∀ f : Nat,
      (∀ t rel pfx d, step fnm ps md f (.inl (t, rel, pfx, d)) =
        step fnm [] md f (.inl (pruneTreeAt fnm ps rel t, rel, pfx, d))) ∧
      (∀ es rel pfx d,
        (∀ e ∈ es, !(e.isDir && should_ignore_dir fnm (rel ++ [e.name]) ps) = true) →
        step fnm ps md f (.inr (es, rel, pfx, d)) =
          step fnm [] md f
            (.inr (es.map (fun e => pruneTreeAt fnm ps (rel ++ [e.name]) e), rel, pfx, d))) := by
  intro f
  induction f with
  | zero => constructor <;> intros <;> rfl
  | succ f ih =>
    constructor
    · intro t rel pfx d
      simp only [step]
      split
      · rfl
      · cases t with
        | file n =>
          exact ih.2 [] rel pfx d (by simp)
        | dir n ch =>
          have hc : (pruneTreeAt fnm ps rel (FTree.dir n ch)).children =
              pruneChildren fnm ps rel ch := rfl
          rw [hc, sortedEntries_prune]
          exact ih.2 (sortedEntries fnm ps rel (FTree.children (FTree.dir n ch))) rel pfx d
            (fun e he => mem_sortedEntries_pred fnm ps rel _ e he)
    · intro es rel pfx d hpred
      cases es with
      | nil => rfl
      | cons e rest =>
        have he := hpred e (List.mem_cons_self e rest)
        have hef : (e.isDir && should_ignore_dir fnm (rel ++ [e.name]) ps) = false := by
          revert he
          cases (e.isDir && should_ignore_dir fnm (rel ++ [e.name]) ps) <;> simp
        have hmapempty : (rest.map (fun e => pruneTreeAt fnm ps (rel ++ [e.name]) e)).isEmpty
            = rest.isEmpty := by
          cases rest <;> rfl
        simp only [List.map_cons, step, hef, Bool.false_eq_true, if_false,
          pruneTreeAt_isDir, pruneTreeAt_name, should_ignore_dir_nil, Bool.and_false,
          hmapempty]
        have htail := ih.2 rest rel pfx d (fun x hx => hpred x (List.mem_cons_of_mem e hx))
        rw [htail]
        by_cases hdir : e.isDir = true
        · simp only [hdir, if_true]
          rw [ih.1 e (rel ++ [e.name]) (pfx ++ (if rest.isEmpty then "   " else "│  ")) (d + 1)]
        · simp only [hdir, Bool.false_eq_true, if_false]

theorem pruneCh_szL_le (fnm : String → String → Bool) (ps : List String) :
    ∀ f rel l, szL l ≤ f → szL (pruneCh fnm ps f rel l) ≤ szL l := by
  intro f
  induction f with
  | zero =>
    intro rel l h
    have := szL_pos l
    omega
  | succ f ih =>
    intro rel l h
    cases l with
    | nil => simp [pruneCh]
    | cons e rest =>
      have hrest : szL rest ≤ f := by
        rw [szL_cons] at h
        have := sz_pos e
        omega
      cases e with
      | file n =>
        simp only [pruneCh, szL_cons]
        have := ih rel rest hrest
        omega
      | dir n ch =>
        have hsz : FTree.sz (.dir n ch) = 1 + szL ch := rfl
        have hch : szL ch ≤ f := by
          rw [szL_cons] at h
          have := szL_pos rest
          omega
        cases hig : should_ignore_dir fnm (rel ++ [n]) ps with
        | true =>
          simp only [pruneCh, hig, if_true]
          have h1 := ih rel rest hrest
          rw [szL_cons]
          have := szL_pos rest
          omega
        | false =>
          simp only [pruneCh, hig, Bool.false_eq_true, if_false]
          have h1 := ih rel rest hrest
          have h2 := ih (rel ++ [n]) ch hch
          rw [szL_cons, szL_cons]
          have h3 : FTree.sz (FTree.dir n (pruneCh fnm ps f (rel ++ [n]) ch)) =
              1 + szL (pruneCh fnm ps f (rel ++ [n]) ch) := rfl
          rw [h3, hsz]
          omega

theorem sz_pruneTreeAt_le (fnm : String → String → Bool) (ps : List String)
    (rel : List String) (t : FTree) : FTree.sz (pruneTreeAt fnm ps rel t) ≤ FTree.sz t := by
  cases t with
  | file n => exact le_rfl
  | dir n ch =>
    have h1 : FTree.sz (pruneTreeAt fnm ps rel (FTree.dir n ch)) =
        1 + szL (pruneChildren fnm ps rel ch) := rfl
    have h2 : FTree.sz (FTree.dir n ch) = 1 + szL ch := rfl
    rw [h1, h2]
    have := pruneCh_szL_le fnm ps (szL ch) rel ch le_rfl
    unfold pruneChildren
    omega

/-- C7.  Ignore filtering: the encoder's output over ignore patterns `ps`
equals the output of the encoder with no patterns on the tree from which
every matching directory (matched on bare name or root-relative path) has
been removed together with its whole subtree — so an ignored directory
contributes no line, nor does any of its descendants; and a file child is
never filtered out by the ignore patterns, whatever its name matches. -/
theorem c7_ignore_filtering (fnm : String → String → Bool) (ps : List String)
    (md : Option Int) (t : FTree) :
    write_tree fnm ps md t = write_tree fnm [] md (pruneTreeAt fnm ps [] t) ∧
    (∀ rel ch e, e ∈ ch → e.isDir = false → e ∈ sortedEntries fnm ps rel ch) := by
  constructor
  · have hname : (pruneTreeAt fnm ps [] t).name = t.name := pruneTreeAt_name fnm ps [] t
    have hstep : ∀ f, FTree.sz t + 1 ≤ f →
        step fnm ps md f (.inl (t, [], "", 0)) =
          step fnm [] md (FTree.sz (pruneTreeAt fnm ps [] t) + 1)
            (.inl (pruneTreeAt fnm ps [] t, [], "", 0)) := by
      intro f hf
      rw [(step_prune fnm ps md f).1 t [] "" 0]
      exact stepCongr fnm [] md f _ _
        (by simp only [stepReq]; have := sz_pruneTreeAt_le fnm ps [] t; omega)
        (by simp only [stepReq]; omega)
    unfold write_tree
    rw [hname]
    cases md with
    | none =>
      rw [hstep (FTree.sz t + 1) le_rfl]
    | some k =>
      by_cases hk : 0 < k
      · simp only [hk, if_true]
        rw [hstep (FTree.sz t + 1) le_rfl]
      · simp only [hk, if_false]
  · intro rel ch e he hdir
    unfold sortedEntries
    refine (List.perm_insertionSort entryLe _).mem_iff.mpr ?_
    exact List.mem_filter.mpr ⟨he, by simp [hdir]⟩

/-! ### C8: idempotent materialisation -/

theorem fsFind_append_left {fs : FS} {p : FPath} {e : FSEntry}
    (h : fsFind fs p = some e) (l : FS) : fsFind (fs ++ l) p = some e := by
  induction fs with
  | nil => simp [fsFind] at h
  | cons hd rest ih =>
    obtain ⟨q, x⟩ := hd
    simp only [fsFind, List.cons_append] at h ⊢
    by_cases hq : q = p
    · rw [if_pos hq] at h ⊢
      exact h
    · rw [if_neg hq] at h ⊢
      exact ih h

theorem fsFind_append_self {fs : FS} {p : FPath} (e : FSEntry)
    (h : fsFind fs p = none) : fsFind (fs ++ [(p, e)]) p = some e := by
  induction fs with
  | nil => simp [fsFind]
  | cons hd rest ih =>
    obtain ⟨q, x⟩ := hd
    simp only [fsFind, List.cons_append] at h ⊢
    by_cases hq : q = p
    · rw [if_pos hq] at h
      exact absurd h (by simp)
    · rw [if_neg hq] at h ⊢
      exact ih h

theorem mkdir1_mono {fs fs2 : FS} {p : FPath} (h : mkdir1 fs p = some fs2) :
    ∀ q e, fsFind fs q = some e → fsFind fs2 q = some e := by
  intro q e hf
  unfold mkdir1 at h
  split at h
  · cases h
    exact fsFind_append_left hf _
  · cases h
    exact hf
  · cases h

theorem mkdir1_post {fs fs2 : FS} {p : FPath} (h : mkdir1 fs p = some fs2) :
    fsFind fs2 p = some FSEntry.dir := by
  unfold mkdir1 at h
  split at h
  · cases h
    exact fsFind_append_self _ (by assumption)
  · cases h
    assumption
  · cases h

theorem mkdir1_stable {fs : FS} {p : FPath} (h : fsFind fs p = some FSEntry.dir) :
    mkdir1 fs p = some fs := by
  unfold mkdir1
  rw [h]

theorem mkdirpAux_mono : ∀ (segs : List String) (fs : FS) (done : FPath) (fs2 : FS),
    mkdirpAux fs done segs = some fs2 →
    ∀ q e, fsFind fs q = some e → fsFind fs2 q = some e := by
  intro segs
  induction segs with
  | nil =>
    intro fs done fs2 h q e hf
    cases h
    exact hf
  | cons seg rest ih =>
    intro fs done fs2 h q e hf
    unfold mkdirpAux at h
    cases hm : mkdir1 fs (done ++ [seg]) with
    | none => rw [hm] at h; cases h
    | some fs1 =>
      rw [hm] at h
      exact ih fs1 (done ++ [seg]) fs2 h q e (mkdir1_mono hm q e hf)

theorem mkdirpAux_post : ∀ (segs : List String) (fs : FS) (done : FPath) (fs2 : FS),
    mkdirpAux fs done segs = some fs2 →
    ∀ i, i < segs.length → fsFind fs2 (done ++ segs.take (i + 1)) = some FSEntry.dir := by
  intro segs
  induction segs with
  | nil =>
    intro fs done fs2 _ i hi
    simp at hi
  | cons seg rest ih =>
    intro fs done fs2 h i hi
    unfold mkdirpAux at h
    cases hm : mkdir1 fs (done ++ [seg]) with
    | none => rw [hm] at h; cases h
    | some fs1 =>
      rw [hm] at h
      cases i with
      | zero =>
        simp only [List.take_succ_cons, List.take_zero]
        exact mkdirpAux_mono rest fs1 (done ++ [seg]) fs2 h _ _ (mkdir1_post hm)
      | succ i =>
        have hr := ih fs1 (done ++ [seg]) fs2 h i (by simpa using hi)
        simp only [List.take_succ_cons]
        rw [List.append_cons]
        exact hr

theorem mkdirpAux_stable : ∀ (segs : List String) (fs : FS) (done : FPath),
    (∀ i, i < segs.length → fsFind fs (done ++ segs.take (i + 1)) = some FSEntry.dir) →
    mkdirpAux fs done segs = some fs := by
  intro segs
  induction segs with
  | nil => intro fs done _; rfl
  | cons seg rest ih =>
    intro fs done hall
    have h0 : fsFind fs (done ++ [seg]) = some FSEntry.dir := by
      simpa using hall 0 (by simp)
    unfold mkdirpAux
    rw [mkdir1_stable h0]
    refine ih fs (done ++ [seg]) ?_
    intro i hi
    have hr := hall (i + 1) (by simpa using hi)
    simp only [List.take_succ_cons] at hr
    rw [List.append_cons] at hr
    exact hr

theorem mkdirp_mono {fs fs2 : FS} {p : FPath} (h : mkdirp fs p = some fs2) :
    ∀ q e, fsFind fs q = some e → fsFind fs2 q = some e :=
  mkdirpAux_mono p fs [] fs2 h

theorem mkdirp_idem {fs fs1 fsE : FS} {p : FPath} (h : mkdirp fs p = some fs1)
    (hle : ∀ q e, fsFind fs1 q = some e → fsFind fsE q = some e) :
    mkdirp fsE p = some fsE := by
  refine mkdirpAux_stable p fsE [] ?_
  intro i hi
  have := mkdirpAux_post p fs [] fs1 h i hi
  exact hle _ _ this

theorem touchA_mono {fs fs2 : FS} {p : FPath} (h : touchA fs p = some fs2) :
    ∀ q e, fsFind fs q = some e → fsFind fs2 q = some e := by
  intro q e hf
  unfold touchA at h
  split at h
  · cases h
    exact fsFind_append_left hf _
  · cases h
    exact hf
  · cases h

theorem touchA_post {fs fs2 : FS} {p : FPath} (h : touchA fs p = some fs2) :
    ∃ c, fsFind fs2 p = some (FSEntry.file c) := by
  unfold touchA at h
  split at h
  · cases h
    exact ⟨"", fsFind_append_self _ (by assumption)⟩
  · cases h
    rename_i c heq
    exact ⟨c, heq⟩
  · cases h

theorem touchA_stable {fs : FS} {p : FPath} {c : String}
    (h : fsFind fs p = some (FSEntry.file c)) : touchA fs p = some fs := by
  unfold touchA
  rw [h]

theorem touchA_idem {fs fs1 fsE : FS} {p : FPath} (h : touchA fs p = some fs1)
    (hle : ∀ q e, fsFind fs1 q = some e → fsFind fsE q = some e) :
    touchA fsE p = some fsE := by
  obtain ⟨c, hc⟩ := touchA_post h
  exact touchA_stable (hle _ _ hc)

theorem ffLoop_mono (dest : FPath) (strip : Bool) :
    ∀ (lines : List String) (i : Nat) (base : FPath) (stack : List FPath) (fs fsE : FS),
      FolderForge.ffLoop dest strip lines i base stack fs = some fsE →
      ∀ q e, fsFind fs q = some e → fsFind fsE q = some e := by
  intro lines
  induction lines with
  | nil =>
    intro i base stack fs fsE h q e hf
    cases h
    exact hf
  | cons raw rest ih =>
    intro i base stack fs fsE h q e hf
    simp only [FolderForge.ffLoop] at h
    split at h
    · exact ih _ _ _ _ _ h q e hf
    · split at h
      · split at h
        · simp at h
        · rename_i fs2 hm
          exact ih _ _ _ _ _ h q e (mkdirp_mono hm q e hf)
      · split at h
        · exact ih _ _ _ _ _ h q e hf
        · split at h
          · split at h
            · simp at h
            · rename_i fs2 hm
              exact ih _ _ _ _ _ h q e (mkdirp_mono hm q e hf)
          · split at h
            · simp at h
            · rename_i fs2 hm
              split at h
              · simp at h
              · rename_i fs3 ht
                exact ih _ _ _ _ _ h q e (touchA_mono ht q e (mkdirp_mono hm q e hf))

theorem stLoop_mono (dest : FPath) (strip : Bool) (flr : Bool) :
    ∀ (lines : List String) (base : FPath) (stack : List FPath) (fs fsE : FS),
      Start.stLoop dest strip flr lines base stack fs = some fsE →
      ∀ q e, fsFind fs q = some e → fsFind fsE q = some e := by
  intro lines
  induction lines with
  | nil =>
    intro base stack fs fsE h q e hf
    cases h
    exact hf
  | cons raw rest ih =>
    intro base stack fs fsE h q e hf
    simp only [Start.stLoop] at h
    split at h
    · exact ih _ _ _ _ h q e hf
    · split at h
      · split at h
        · split at h
          · simp at h
          · rename_i fs2 hm
            exact ih _ _ _ _ h q e (mkdirp_mono hm q e hf)
        · exact ih _ _ _ _ h q e hf
      · split at h
        · exact ih _ _ _ _ h q e hf
        · split at h
          · simp at h
          · split at h
            · split at h
              · simp at h
              · rename_i fs2 hm
                exact ih _ _ _ _ h q e (mkdirp_mono hm q e hf)
            · split at h
              · simp at h
              · rename_i fs2 hm
                split at h
                · simp at h
                · rename_i fs3 ht
                  exact ih _ _ _ _ h q e (touchA_mono ht q e (mkdirp_mono hm q e hf))

theorem ffLoop_idem (dest : FPath) (strip : Bool) :
    ∀ (lines : List String) (i : Nat) (base : FPath) (stack : List FPath) (fs fsE : FS),
      FolderForge.ffLoop dest strip lines i base stack fs = some fsE →
      FolderForge.ffLoop dest strip lines i base stack fsE = some fsE := by
  intro lines
  induction lines with
  | nil =>
    intro i base stack fs fsE h
    cases h
    rfl
  | cons raw rest ih =>
    intro i base stack fs fsE h
    simp only [FolderForge.ffLoop] at h ⊢
    split at h
    · rename_i h0
      rw [if_pos h0]
      exact ih _ _ _ _ _ h
    · rename_i h0
      rw [if_neg h0]
      split at h
      · rename_i hc1
        rw [if_pos hc1]
        split at h
        · simp at h
        · rename_i fs2 hm
          have hle : ∀ q e, fsFind fs2 q = some e → fsFind fsE q = some e :=
            ffLoop_mono dest strip rest _ _ _ _ _ h
          rw [mkdirp_idem hm hle]
          exact ih _ _ _ _ _ h
      · rename_i hc1
        rw [if_neg hc1]
        split at h
        · rename_i hc2
          rw [if_pos hc2]
          exact ih _ _ _ _ _ h
        · rename_i hc2
          rw [if_neg hc2]
          split at h
          · rename_i hb
            rw [if_pos hb]
            split at h
            · simp at h
            · rename_i fs2 hm
              have hle : ∀ q e, fsFind fs2 q = some e → fsFind fsE q = some e :=
                ffLoop_mono dest strip rest _ _ _ _ _ h
              rw [mkdirp_idem hm hle]
              exact ih _ _ _ _ _ h
          · rename_i hb
            rw [if_neg hb]
            split at h
            · simp at h
            · rename_i fs2 hm
              split at h
              · simp at h
              · rename_i fs3 ht
                have hle3 : ∀ q e, fsFind fs3 q = some e → fsFind fsE q = some e :=
                  ffLoop_mono dest strip rest _ _ _ _ _ h
                have hle2 : ∀ q e, fsFind fs2 q = some e → fsFind fsE q = some e :=
                  fun q e hq => hle3 q e (touchA_mono ht q e hq)
                have hmE := mkdirp_idem hm hle2
                have htE := touchA_idem ht hle3
                simp only [hmE, htE]
                exact ih _ _ _ _ _ h

theorem stLoop_idem (dest : FPath) (strip : Bool) (flr : Bool) :
    ∀ (lines : List String) (base : FPath) (stack : List FPath) (fs fsE : FS),
      Start.stLoop dest strip flr lines base stack fs = some fsE →
      Start.stLoop dest strip flr lines base stack fsE = some fsE := by
  intro lines
  induction lines with
  | nil =>
    intro base stack fs fsE h
    cases h
    rfl
  | cons raw rest ih =>
    intro base stack fs fsE h
    simp only [Start.stLoop] at h ⊢
    split at h
    · exact ih _ _ _ _ h
    · split at h
      · rename_i hroot
        rw [if_pos hroot]
        split at h
        · rename_i hstrip
          rw [if_pos hstrip]
          split at h
          · simp at h
          · rename_i fs2 hm
            have hle : ∀ q e, fsFind fs2 q = some e → fsFind fsE q = some e :=
              stLoop_mono dest strip flr rest _ _ _ _ h
            rw [mkdirp_idem hm hle]
            exact ih _ _ _ _ h
        · rename_i hstrip
          rw [if_neg hstrip]
          exact ih _ _ _ _ h
      · rename_i hroot
        rw [if_neg hroot]
        split at h
        · rename_i hd
          rw [if_pos hd]
          exact ih _ _ _ _ h
        · rename_i hd
          rw [if_neg hd]
          split at h
          · simp at h
          · rename_i parent hpar
            split at h
            · rename_i hb
              rw [if_pos hb]
              split at h
              · simp at h
              · rename_i fs2 hm
                have hle : ∀ q e, fsFind fs2 q = some e → fsFind fsE q = some e :=
                  stLoop_mono dest strip flr rest _ _ _ _ h
                rw [mkdirp_idem hm hle]
                exact ih _ _ _ _ h
            · rename_i hb
              rw [if_neg hb]
              split at h
              · simp at h
              · rename_i fs2 hm
                split at h
                · simp at h
                · rename_i fs3 ht
                  have hle3 : ∀ q e, fsFind fs3 q = some e → fsFind fsE q = some e :=
                    stLoop_mono dest strip flr rest _ _ _ _ h
                  have hle2 : ∀ q e, fsFind fs2 q = some e → fsFind fsE q = some e :=
                    fun q e hq => hle3 q e (touchA_mono ht q e hq)
                  have hmE := mkdirp_idem hm hle2
                  have htE := touchA_idem ht hle3
                  simp only [hmE, htE]
                  exact ih _ _ _ _ h

/-- C8.  Idempotent materialisation: if a run of either materialiser on an
artifact succeeds and produces the filesystem `fs1` (resp. `fs2`), then a
second run of the same materialiser on the same artifact against that
filesystem succeeds and leaves it exactly as it was — every directory and
file stays in place and every existing file keeps its content (creation
is a no-op, not a truncation). -/
theorem c8_idempotent (lines : List String) (dest : FPath) (strip : Bool)
    (fs fs1 fs2 : FS) :
    (FolderForge.create_structure_from_file lines dest strip fs = some fs1 →
      FolderForge.create_structure_from_file lines dest strip fs1 = some fs1) ∧
    (Start.create_structure_from_file lines dest strip fs = some fs2 →
      Start.create_structure_from_file lines dest strip fs2 = some fs2) := by
  constructor
  · intro h
    exact ffLoop_idem dest strip lines 0 dest [] fs fs1 h
  · intro h
    unfold Start.create_structure_from_file at h ⊢
    exact stLoop_idem dest strip _ lines dest [] fs fs2 h

/-- C8, witness: both materialisers run twice on a concrete artifact
against an empty destination; the second run reproduces the first run's
filesystem exactly. -/
theorem c8_idempotent_witness :
    FolderForge.create_structure_from_file ["r/", "├─ a/", "└─ b"] [] false [] =
      some [(["r"], FSEntry.dir), (["r", "a"], FSEntry.dir), (["r", "b"], FSEntry.file "")] ∧
    FolderForge.create_structure_from_file ["r/", "├─ a/", "└─ b"] [] false
        [(["r"], FSEntry.dir), (["r", "a"], FSEntry.dir), (["r", "b"], FSEntry.file "")] =
      some [(["r"], FSEntry.dir), (["r", "a"], FSEntry.dir), (["r", "b"], FSEntry.file "")] ∧
    Start.create_structure_from_file ["r/", "├─ a/", "└─ b"] [] false [] =
      some [(["r"], FSEntry.dir), (["r", "a"], FSEntry.dir), (["r", "b"], FSEntry.file "")] ∧
    Start.create_structure_from_file ["r/", "├─ a/", "└─ b"] [] false
        [(["r"], FSEntry.dir), (["r", "a"], FSEntry.dir), (["r", "b"], FSEntry.file "")] =
      some [(["r"], FSEntry.dir), (["r", "a"], FSEntry.dir), (["r", "b"], FSEntry.file "")] :=
  ⟨by decide,
    (c8_idempotent ["r/", "├─ a/", "└─ b"] [] false []
      [(["r"], FSEntry.dir), (["r", "a"], FSEntry.dir), (["r", "b"], FSEntry.file "")]
      [(["r"], FSEntry.dir), (["r", "a"], FSEntry.dir), (["r", "b"], FSEntry.file "")]).1
      (by decide),
    by decide,
    (c8_idempotent ["r/", "├─ a/", "└─ b"] [] false []
      [(["r"], FSEntry.dir), (["r", "a"], FSEntry.dir), (["r", "b"], FSEntry.file "")]
      [(["r"], FSEntry.dir), (["r", "a"], FSEntry.dir), (["r", "b"], FSEntry.file "")]).2
      (by decide)⟩

/-! ### C10: materialiser equivalence (amended to flat artifacts) -/

/-- An entry name both materialisers agree on: non-empty, without path
separator, and without leading or trailing whitespace. -/
def goodNameB (s : String) : Bool :=
  !s.data.isEmpty && !s.data.contains '/' &&
    (match s.data.head? with | some c => !pyIsSpace c | none => false) &&
    (match s.data.getLast? with | some c => !pyIsSpace c | none => false)

/-- A root name both materialisers agree on: non-empty and made of
word characters (letters, digits, underscore, hyphen). -/
def goodRootB (s : String) : Bool :=
  !s.data.isEmpty && s.data.all Start.wordChar

/-- One depth-0 entry line of a flat artifact: a connector (either one),
the entry name, and "/" iff the entry is a directory. -/
def flatLine (x : Bool × String × Bool) : String :=
  (if x.1 then "└─ " else "├─ ") ++ x.2.1 ++ (if x.2.2 then "/" else "")

theorem goodNameB_spec {s : String} (h : goodNameB s = true) :
    s.data ≠ [] ∧ s.data.contains '/' = false ∧
    (∀ c, s.data.head? = some c → pyIsSpace c = false) ∧
    (∀ c, s.data.getLast? = some c → pyIsSpace c = false) := by
  unfold goodNameB at h
  simp only [Bool.and_eq_true, Bool.not_eq_true'] at h
  obtain ⟨⟨⟨h1, h2⟩, h3⟩, h4⟩ := h
  refine ⟨by simpa using h1, h2, ?_, ?_⟩
  · intro c hc
    rw [hc] at h3
    simpa using h3
  · intro c hc
    rw [hc] at h4
    simpa using h4

theorem dropWhile_cons_false {p : Char → Bool} {c : Char} (l : List Char)
    (h : p c = false) : (c :: l).dropWhile p = c :: l := by
  simp [List.dropWhile_cons, h]

theorem dropWhile_fix {p : Char → Bool} {l : List Char}
    (hh : ∀ c, l.head? = some c → p c = false) : l.dropWhile p = l := by
  cases l with
  | nil => rfl
  | cons c rest => exact dropWhile_cons_false rest (hh c rfl)

theorem revDropWhile_fix {p : Char → Bool} {l : List Char}
    (hl : ∀ c, l.getLast? = some c → p c = false) :
    (l.reverse.dropWhile p).reverse = l := by
  have h2 : l.reverse.dropWhile p = l.reverse := by
    refine dropWhile_fix ?_
    intro c hc
    rw [List.head?_reverse] at hc
    exact hl c hc
  rw [h2, List.reverse_reverse]

theorem revDropWhile_concat {p : Char → Bool} {l : List Char} {a : Char}
    (ha : p a = true)
    (hl : ∀ c, l.getLast? = some c → p c = false) :
    ((l ++ [a]).reverse.dropWhile p).reverse = l := by
  rw [List.reverse_append]
  simp only [List.reverse_cons, List.reverse_nil, List.nil_append, List.singleton_append,
    List.dropWhile_cons, ha, if_pos]
  have h2 : l.reverse.dropWhile p = l.reverse := by
    refine dropWhile_fix ?_
    intro c hc
    rw [List.head?_reverse] at hc
    exact hl c hc
  rw [h2, List.reverse_reverse]

theorem strip_fix_of_ends {l : List Char}
    (hh : ∀ c, l.head? = some c → pyIsSpace c = false)
    (hl : ∀ c, l.getLast? = some c → pyIsSpace c = false) :
    pyStrip (String.mk l) = String.mk l := by
  unfold pyStrip
  rw [dropWhile_fix hh]
  rw [show ((l.reverse.dropWhile pyIsSpace).reverse) = l from revDropWhile_fix hl]

theorem rstrip_fix_of_last {l : List Char}
    (hl : ∀ c, l.getLast? = some c → pyIsSpace c = false) :
    pyRstrip (String.mk l) = String.mk l := by
  unfold pyRstrip
  rw [show ((l.reverse.dropWhile pyIsSpace).reverse) = l from revDropWhile_fix hl]

theorem wordChar_not_space {c : Char} (h : Start.wordChar c = true) : pyIsSpace c = false := by
  unfold Start.wordChar at h
  unfold pyIsSpace
  simp only [Bool.or_eq_true, Bool.and_eq_true, decide_eq_true_eq] at h
  simp only [Bool.or_eq_false_iff, decide_eq_false_iff_not]
  omega

theorem wordChar_ne {c : Char} (h : Start.wordChar c = true) (d : Char)
    (hd : 122 < d.toNat) : c ≠ d := by
  intro hcd
  unfold Start.wordChar at h
  simp only [Bool.or_eq_true, Bool.and_eq_true, decide_eq_true_eq] at h
  subst hcd
  omega

theorem maxUnits_cons_zero {c : Char} (tail : List Char)
    (h1 : c ≠ '│') (h2 : c ≠ ' ') : Start.maxUnits (c :: tail) = 0 := by
  rw [Start.maxUnits.eq_def]
  split
  · rename_i heq
    rw [List.cons.injEq] at heq
    exact absurd heq.1 h1
  · rename_i heq
    rw [List.cons.injEq] at heq
    exact absurd heq.1 h2
  · rfl

theorem connAt_cons_none {c : Char} (tail : List Char)
    (h1 : c ≠ '├') (h2 : c ≠ '└') : Start.connAt (c :: tail) = none := by
  rw [Start.connAt.eq_def]
  split
  · rename_i heq
    rw [List.cons.injEq] at heq
    exact absurd heq.1 h1
  · rename_i heq
    rw [List.cons.injEq] at heq
    exact absurd heq.1 h2
  · rename_i heq
    rw [List.cons.injEq] at heq
    exact absurd heq.1 h1
  · rename_i heq
    rw [List.cons.injEq] at heq
    exact absurd heq.1 h2
  · rfl

theorem contains_false_of_all_word {l : List Char} (h : l.all Start.wordChar = true)
    (d : Char) (hd : 122 < d.toNat) : l.contains d = false := by
  cases hc : l.contains d with
  | false => rfl
  | true =>
    have hmem : d ∈ l := by
      simpa using hc
    have := (List.all_eq_true.mp h) d hmem
    exact absurd rfl (wordChar_ne this d hd)

theorem pyStrip_space_cons {n : String} (h : goodNameB n = true) :
    pyStrip (String.mk (' ' :: n.data)) = n := by
  obtain ⟨hne, _, hh, hl⟩ := goodNameB_spec h
  unfold pyStrip
  have h1 : (' ' :: n.data).dropWhile pyIsSpace = n.data.dropWhile pyIsSpace := by
    simp [List.dropWhile_cons, pyIsSpace]
  rw [h1, dropWhile_fix hh,
    show ((n.data.reverse.dropWhile pyIsSpace).reverse) = n.data from revDropWhile_fix hl]

/-- Parsing of one flat entry line by folderforge.py's per-line logic:
depth 0, the bare name, and the directory flag. -/
theorem ffParseLine_core {line : String} (c0 : Char) (n : String) (isD : Bool)
    (hc0 : c0 = '├' ∨ c0 = '└') (h : goodNameB n = true)
    (hdata : line.data = c0 :: '─' :: ' ' :: (n.data ++ (if isD then ['/'] else []))) :
    FolderForge.ffParseLine line = (0, n, isD) := by
  obtain ⟨hne, hcont, hh, hl⟩ := goodNameB_spec h
  obtain ⟨cl, hcl⟩ : ∃ cl, n.data.getLast? = some cl := by
    cases hg : n.data.getLast? with
    | none => exact absurd (List.getLast?_eq_none_iff.mp hg) hne
    | some c => exact ⟨c, rfl⟩
  have hclmem : cl ∈ n.data := List.mem_of_mem_getLast? (by rw [hcl]; rfl)
  have hclslash : cl ≠ '/' := by
    intro hcs
    subst hcs
    exact absurd hclmem (by simpa using hcont)
  have hclspace : pyIsSpace cl = false := hl cl hcl
  have hdata2 : line.data =
      ([c0, '─', ' '] ++ n.data) ++ (if isD then ['/'] else []) := by
    rw [hdata]
    simp
  have hlast2 : ∀ c, ([c0, '─', ' '] ++ n.data).getLast? = some c →
      (fun d => decide (d = '/')) c = false := by
    intro c hc
    rw [List.getLast?_append_of_ne_nil _ hne, hcl] at hc
    cases hc
    simp [hclslash]
  have hend : pyEndsWith line '/' = isD := by
    unfold pyEndsWith
    rw [hdata2]
    cases isD with
    | true =>
      simp only [if_true]
      rw [show ([c0, '─', ' '] ++ n.data) ++ ['/'] =
        [c0, '─', ' '] ++ (n.data ++ ['/']) by simp,
        List.getLast?_append_of_ne_nil _ (by simp), List.getLast?_concat]
      simp
    | false =>
      simp only [Bool.false_eq_true, if_false, List.append_nil]
      rw [List.getLast?_append_of_ne_nil _ hne, hcl]
      simp [hclslash]
  have hcore : (pyRstripSlashes line).data = [c0, '─', ' '] ++ n.data := by
    unfold pyRstripSlashes
    rw [hdata2]
    cases isD with
    | true =>
      simp only [if_true]
      rw [revDropWhile_concat (by decide) hlast2]
    | false =>
      simp only [Bool.false_eq_true, if_false, List.append_nil]
      rw [revDropWhile_fix hlast2]
  unfold FolderForge.ffParseLine
  have hcond : (pyRstripSlashes line).data.contains '─' = true := by
    rw [hcore]
    rcases hc0 with rfl | rfl <;> rfl
  rw [if_pos hcond, hcore, hend]
  have hpre : (([c0, '─', ' '] ++ n.data).takeWhile (fun c => c != '─')) = [c0] := by
    rcases hc0 with rfl | rfl <;> rfl
  have hpost : ((([c0, '─', ' '] ++ n.data).dropWhile (fun c => c != '─'))).tail =
      ' ' :: n.data := by
    rcases hc0 with rfl | rfl <;> rfl
  rw [hpre, hpost]
  show (List.count '│' [c0] + countSp2 [c0] / 2, pyStrip (String.mk (' ' :: n.data)), isD) =
    (0, n, isD)
  rw [pyStrip_space_cons h]
  rcases hc0 with rfl | rfl <;> rfl

/-- Parsing of one flat entry line by start.py's `parse_line`: not a root
line, depth 0, the bare name, and the directory flag. -/
theorem parse_line_core {line : String} (c0 : Char) (n : String) (isD : Bool)
    (hc0 : c0 = '├' ∨ c0 = '└') (h : goodNameB n = true)
    (hdata : line.data = c0 :: '─' :: ' ' :: (n.data ++ (if isD then ['/'] else []))) :
    Start.parse_line line = some (false, 0, n, isD) := by
  obtain ⟨hne, hcont, hh, hl⟩ := goodNameB_spec h
  obtain ⟨cl, hcl⟩ : ∃ cl, n.data.getLast? = some cl := by
    cases hg : n.data.getLast? with
    | none => exact absurd (List.getLast?_eq_none_iff.mp hg) hne
    | some c => exact ⟨c, rfl⟩
  have hclmem : cl ∈ n.data := List.mem_of_mem_getLast? (by rw [hcl]; rfl)
  have hclslash : cl ≠ '/' := by
    intro hcs
    subst hcs
    exact absurd hclmem (by simpa using hcont)
  have hclspace : pyIsSpace cl = false := hl cl hcl
  have hlastline : ∀ c, line.data.getLast? = some c → pyIsSpace c = false := by
    intro c hc
    rw [hdata, show c0 :: '─' :: ' ' :: (n.data ++ (if isD then ['/'] else [])) =
      [c0, '─', ' '] ++ (n.data ++ (if isD then ['/'] else [])) from by simp] at hc
    cases isD with
    | true =>
      simp only [if_true] at hc
      rw [List.getLast?_append_of_ne_nil _ (by simp), List.getLast?_concat] at hc
      cases hc
      decide
    | false =>
      simp only [Bool.false_eq_true, if_false, List.append_nil] at hc
      rw [List.getLast?_append_of_ne_nil _ hne, hcl] at hc
      cases hc
      exact hclspace
  have hheadline : ∀ c, line.data.head? = some c → pyIsSpace c = false := by
    intro c hc
    rw [hdata] at hc
    cases hc
    rcases hc0 with rfl | rfl <;> decide
  have hstrip : pyStrip line = line := by
    have := strip_fix_of_ends hheadline hlastline
    simpa using this
  have hnonempty : ¬ (pyStrip line = "") := by
    rw [hstrip]
    intro hcontra
    have : line.data = [] := by
      rw [hcontra]
    rw [hdata] at this
    cases this
  have hnl : pyRstripNl line = line := by
    unfold pyRstripNl
    have hfix : ∀ c, line.data.getLast? = some c →
        (fun d => decide (d = '\n')) c = false := by
      intro c hc
      have := hlastline c hc
      simp only [decide_eq_false_iff_not]
      intro hceq
      subst hceq
      simp [pyIsSpace] at this
    have := revDropWhile_fix hfix
    rw [this]
  obtain ⟨h0, nd2, hnd⟩ : ∃ h0 t, n.data = h0 :: t := by
    cases hcase : n.data with
    | nil => exact absurd hcase hne
    | cons a b => exact ⟨a, b, rfl⟩
  have hc5 : n.data.isEmpty = false := by
    rw [hnd]; rfl
  have hnameSlash : Start.nameSlash (n.data ++ (if isD then ['/'] else [])) =
      some (n.data, isD) := by
    cases isD with
    | true =>
      simp only [if_true]
      unfold Start.nameSlash
      have hc1 : (n.data ++ ['/']).isEmpty = false := by
        rw [hnd]; rfl
      have hc2 : (n.data ++ ['/']).contains '/' = true := by
        simp
      have hc3 : (n.data ++ ['/']).getLast? = some '/' := List.getLast?_concat _
      have hc4 : (n.data ++ ['/']).dropLast = n.data := List.dropLast_concat
      have hmem : ('/' : Char) ∉ n.data := by simpa using hcont
      rw [if_neg (by rw [hc1]; simp), if_neg (by rw [hc2]; simp),
        if_pos (by rw [hc3, hc4]; simp [hmem, hc5]), hc4]
    | false =>
      simp only [Bool.false_eq_true, if_false, List.append_nil]
      unfold Start.nameSlash
      rw [if_neg (by rw [hc5]; simp), if_pos (by rw [hcont]; rfl)]
  have hmatch : Start.lineReMatch line.data = some ([], some [c0, '─', ' '], n.data, isD) := by
    unfold Start.lineReMatch
    rw [hdata]
    rcases hc0 with rfl | rfl
    · have hmu : Start.maxUnits ('├' :: '─' :: ' ' ::
          (n.data ++ (if isD then ['/'] else []))) = 0 :=
        maxUnits_cons_zero _ (by decide) (by decide)
      rw [hmu]
      have hred : Start.reSearch ('├' :: '─' :: ' ' ::
            (n.data ++ (if isD then ['/'] else []))) 0 =
          (match Start.nameSlash (n.data ++ (if isD then ['/'] else [])) with
           | some (nm, s) => some (([] : List Char), some ['├', '─', ' '], nm, s)
           | none =>
             (match Start.nameSlash ('├' :: '─' :: ' ' ::
                 (n.data ++ (if isD then ['/'] else []))) with
              | some (nm, s) => some (([] : List Char), none, nm, s)
              | none => none)) := rfl
      rw [hred, hnameSlash]
    · have hmu : Start.maxUnits ('└' :: '─' :: ' ' ::
          (n.data ++ (if isD then ['/'] else []))) = 0 :=
        maxUnits_cons_zero _ (by decide) (by decide)
      rw [hmu]
      have hred : Start.reSearch ('└' :: '─' :: ' ' ::
            (n.data ++ (if isD then ['/'] else []))) 0 =
          (match Start.nameSlash (n.data ++ (if isD then ['/'] else [])) with
           | some (nm, s) => some (([] : List Char), some ['└', '─', ' '], nm, s)
           | none =>
             (match Start.nameSlash ('└' :: '─' :: ' ' ::
                 (n.data ++ (if isD then ['/'] else []))) with
              | some (nm, s) => some (([] : List Char), none, nm, s)
              | none => none)) := rfl
      rw [hred, hnameSlash]
  unfold Start.parse_line
  rw [if_neg hnonempty, hnl, hmatch]
  show some ((some [c0, '─', ' ']).isNone && ([] : List Char).isEmpty,
    (if ((some [c0, '─', ' ']).isNone && ([] : List Char).isEmpty) = true then 0
      else (Start.replUnits []).length / 3),
    (if (isD && pyEndsWith (pyStrip (String.mk n.data)) '/') = true then
      String.mk (pyStrip (String.mk n.data)).data.dropLast else pyStrip (String.mk n.data)),
    isD) = some (false, 0, n, isD)
  have hstripn : pyStrip (String.mk n.data) = n := by
    have := strip_fix_of_ends hh hl
    simpa using this
  rw [hstripn]
  have hendn : pyEndsWith n '/' = false := by
    unfold pyEndsWith
    rw [hcl]
    simp [hclslash]
  rw [hendn]
  simp
  rfl

theorem all_word_ne {c : Char} (hc : Start.wordChar c = true) (d : Char)
    (hd : Start.wordChar d = false) : c ≠ d := by
  intro heq
  subst heq
  rw [hc] at hd
  cases hd

theorem contains_false_of_all {l : List Char} (h : l.all Start.wordChar = true)
    (d : Char) (hd : Start.wordChar d = false) : l.contains d = false := by
  cases hc : l.contains d with
  | false => rfl
  | true =>
    have hmem : d ∈ l := by simpa using hc
    have := (List.all_eq_true.mp h) d hmem
    rw [this] at hd
    cases hd

theorem goodRootB_spec {s : String} (h : goodRootB s = true) :
    s.data ≠ [] ∧ s.data.all Start.wordChar = true := by
  unfold goodRootB at h
  simp only [Bool.and_eq_true, Bool.not_eq_true'] at h
  exact ⟨by simpa using h.1, h.2⟩

theorem root_line_data (r : String) : (r ++ "/").data = r.data ++ ['/'] := by
  rw [String.data_append]

/-- Parsing of the root line by start.py's `parse_line`: a root line with
the bare root name. -/
theorem parse_line_root {r : String} (h : goodRootB r = true) :
    Start.parse_line (r ++ "/") = some (true, 0, r, true) := by
  obtain ⟨hne, hall⟩ := goodRootB_spec h
  obtain ⟨h0, rd2, hrd⟩ : ∃ h0 t, r.data = h0 :: t := by
    cases hcase : r.data with
    | nil => exact absurd hcase hne
    | cons a b => exact ⟨a, b, rfl⟩
  have hw0 : Start.wordChar h0 = true := by
    refine (List.all_eq_true.mp hall) h0 ?_
    rw [hrd]
    exact List.mem_cons_self _ _
  have hlastr : ∀ c, r.data.getLast? = some c → Start.wordChar c = true := by
    intro c hc
    exact (List.all_eq_true.mp hall) c (List.mem_of_mem_getLast? (by rw [hc]; rfl))
  have hlastline : ∀ c, (r ++ "/").data.getLast? = some c → pyIsSpace c = false := by
    intro c hc
    rw [root_line_data, List.getLast?_concat] at hc
    cases hc
    decide
  have hheadline : ∀ c, (r ++ "/").data.head? = some c → pyIsSpace c = false := by
    intro c hc
    rw [root_line_data, hrd] at hc
    cases hc
    exact wordChar_not_space hw0
  have hstrip : pyStrip (r ++ "/") = r ++ "/" := by
    have := strip_fix_of_ends hheadline hlastline
    simpa using this
  have hnonempty : ¬ (pyStrip (r ++ "/") = "") := by
    rw [hstrip]
    intro hcontra
    have hd : (r ++ "/").data = [] := by rw [hcontra]
    rw [root_line_data, hrd] at hd
    cases hd
  have hnl : pyRstripNl (r ++ "/") = r ++ "/" := by
    unfold pyRstripNl
    have hfix : ∀ c, (r ++ "/").data.getLast? = some c →
        (fun d => decide (d = '\n')) c = false := by
      intro c hc
      rw [root_line_data, List.getLast?_concat] at hc
      cases hc
      decide
    rw [show (((r ++ "/").data.reverse.dropWhile fun d => decide (d = '\n')).reverse) =
      (r ++ "/").data from revDropWhile_fix hfix]
  have hnameSlash : Start.nameSlash (r.data ++ ['/']) = some (r.data, true) := by
    unfold Start.nameSlash
    have hc1 : (r.data ++ ['/']).isEmpty = false := by
      rw [hrd]; rfl
    have hc2 : (r.data ++ ['/']).contains '/' = true := by
      simp
    have hc3 : (r.data ++ ['/']).getLast? = some '/' := List.getLast?_concat _
    have hc4 : (r.data ++ ['/']).dropLast = r.data := List.dropLast_concat
    have hc5 : r.data.isEmpty = false := by rw [hrd]; rfl
    have hcont : r.data.contains '/' = false :=
      contains_false_of_all hall '/' (by decide)
    have hmem : ('/' : Char) ∉ r.data := by simpa using hcont
    rw [if_neg (by rw [hc1]; simp), if_neg (by rw [hc2]; simp),
      if_pos (by rw [hc3, hc4]; simp [hmem, hc5]), hc4]
  have hmatch : Start.lineReMatch (r ++ "/").data = some ([], none, r.data, true) := by
    unfold Start.lineReMatch
    rw [root_line_data, hrd]
    simp only [List.cons_append]
    have hmu : Start.maxUnits (h0 :: (rd2 ++ ['/'])) = 0 :=
      maxUnits_cons_zero _ (all_word_ne hw0 _ (by decide)) (all_word_ne hw0 _ (by decide))
    rw [hmu]
    have hconn : Start.connAt (h0 :: (rd2 ++ ['/'])) = none :=
      connAt_cons_none _ (all_word_ne hw0 _ (by decide)) (all_word_ne hw0 _ (by decide))
    have hred : Start.reSearch (h0 :: (rd2 ++ ['/'])) 0 =
        (match Start.connAt (h0 :: (rd2 ++ ['/'])) with
         | some c =>
           (match Start.nameSlash ((h0 :: (rd2 ++ ['/'])).drop c.length) with
            | some (nm, s) => some (([] : List Char), some c, nm, s)
            | none =>
              (match Start.nameSlash (h0 :: (rd2 ++ ['/'])) with
               | some (nm, s) => some (([] : List Char), none, nm, s)
               | none => none))
         | none =>
           (match Start.nameSlash (h0 :: (rd2 ++ ['/'])) with
            | some (nm, s) => some (([] : List Char), none, nm, s)
            | none => none)) := rfl
    rw [hred, hconn]
    have hns2 : Start.nameSlash (h0 :: (rd2 ++ ['/'])) = some (r.data, true) := by
      rw [show h0 :: (rd2 ++ ['/']) = r.data ++ ['/'] from by rw [hrd]; rfl]
      exact hnameSlash
    rw [hns2]
    simp [hrd]
  unfold Start.parse_line
  rw [if_neg hnonempty, hnl, hmatch]
  show some ((none : Option (List Char)).isNone && ([] : List Char).isEmpty,
    (if ((none : Option (List Char)).isNone && ([] : List Char).isEmpty) = true then 0
      else (Start.replUnits []).length / 3),
    (if (true && pyEndsWith (pyStrip (String.mk r.data)) '/') = true then
      String.mk (pyStrip (String.mk r.data)).data.dropLast else pyStrip (String.mk r.data)),
    true) = some (true, 0, r, true)
  have hstripr : pyStrip (String.mk r.data) = r := by
    have hhr : ∀ c, r.data.head? = some c → pyIsSpace c = false := by
      intro c hc
      rw [hrd] at hc
      cases hc
      exact wordChar_not_space hw0
    have hlr : ∀ c, r.data.getLast? = some c → pyIsSpace c = false := by
      intro c hc
      exact wordChar_not_space (hlastr c hc)
    have := strip_fix_of_ends hhr hlr
    simpa using this
  rw [hstripr]
  have hendr : pyEndsWith r '/' = false := by
    unfold pyEndsWith
    obtain ⟨cl, hcl⟩ : ∃ cl, r.data.getLast? = some cl := by
      cases hg : r.data.getLast? with
      | none => exact absurd (List.getLast?_eq_none_iff.mp hg) hne
      | some c => exact ⟨c, rfl⟩
    rw [hcl]
    have : cl ≠ '/' := all_word_ne (hlastr cl hcl) '/' (by decide)
    simp [this]
  rw [hendr]
  simp

/-- Parsing of the root line by folderforge.py's per-line logic. -/
theorem ffParseLine_root {r : String} (h : goodRootB r = true) :
    FolderForge.ffParseLine (r ++ "/") = (0, r, true) := by
  obtain ⟨hne, hall⟩ := goodRootB_spec h
  have hlastr : ∀ c, r.data.getLast? = some c → Start.wordChar c = true := by
    intro c hc
    exact (List.all_eq_true.mp hall) c (List.mem_of_mem_getLast? (by rw [hc]; rfl))
  have hend : pyEndsWith (r ++ "/") '/' = true := by
    unfold pyEndsWith
    rw [root_line_data, List.getLast?_concat]
    simp
  have hcore : pyRstripSlashes (r ++ "/") = r := by
    unfold pyRstripSlashes
    rw [root_line_data]
    have hfix : ∀ c, r.data.getLast? = some c → (fun d => decide (d = '/')) c = false := by
      intro c hc
      have : c ≠ '/' := all_word_ne (hlastr c hc) '/' (by decide)
      simp [this]
    rw [revDropWhile_concat (by decide) hfix]
  have hcont : r.data.contains '─' = false :=
    contains_false_of_all hall '─' (by decide)
  unfold FolderForge.ffParseLine
  rw [hcore, if_neg (by rw [hcont]; simp), hend]

theorem flatLine_data (x : Bool × String × Bool) :
    (flatLine x).data =
      (if x.1 then '└' else '├') :: '─' :: ' ' ::
        (x.2.1.data ++ (if x.2.2 then ['/'] else [])) := by
  rcases x with ⟨a, n, b⟩
  unfold flatLine
  cases a <;> cases b <;>
    simp [String.data_append]

theorem flatLine_ne_empty (x : Bool × String × Bool) : ¬ (flatLine x = "") := by
  intro hcontra
  have hd : (flatLine x).data = [] := by rw [hcontra]
  rw [flatLine_data] at hd
  cases hd

theorem flatLine_rstrip {x : Bool × String × Bool} (h : goodNameB x.2.1 = true) :
    pyRstrip (flatLine x) = flatLine x := by
  obtain ⟨hne, hcont, hh, hl⟩ := goodNameB_spec h
  have hlast : ∀ c, (flatLine x).data.getLast? = some c → pyIsSpace c = false := by
    intro c hc
    rw [flatLine_data, show ((if x.1 then '└' else '├') :: '─' :: ' ' ::
      (x.2.1.data ++ (if x.2.2 then ['/'] else []))) =
      [(if x.1 then '└' else '├'), '─', ' '] ++
        (x.2.1.data ++ (if x.2.2 then ['/'] else [])) from by simp] at hc
    cases hb : x.2.2 with
    | true =>
      rw [hb] at hc
      simp only [if_true] at hc
      rw [List.getLast?_append_of_ne_nil _ (by simp), List.getLast?_concat] at hc
      cases hc
      decide
    | false =>
      rw [hb] at hc
      simp only [Bool.false_eq_true, if_false, List.append_nil] at hc
      rw [List.getLast?_append_of_ne_nil _ hne] at hc
      exact hl c hc
  have := revDropWhile_fix hlast
  unfold pyRstrip
  rw [this]

theorem ffParseLine_flat {x : Bool × String × Bool} (h : goodNameB x.2.1 = true) :
    FolderForge.ffParseLine (flatLine x) = (0, x.2.1, x.2.2) :=
  ffParseLine_core (if x.1 then '└' else '├') x.2.1 x.2.2
    (by cases hx : x.1 <;> simp [hx]) h (flatLine_data x)

theorem parse_line_flat {x : Bool × String × Bool} (h : goodNameB x.2.1 = true) :
    Start.parse_line (flatLine x) = some (false, 0, x.2.1, x.2.2) :=
  parse_line_core (if x.1 then '└' else '├') x.2.1 x.2.2
    (by cases hx : x.1 <;> simp [hx]) h (flatLine_data x)

set_option maxHeartbeats 1600000 in
/-- On depth-0 entry lines both materialiser loops perform identical
steps. -/
theorem flat_loop_eq (dest : FPath) :
    ∀ (cs : List (Bool × String × Bool)) (i : Nat) (base : FPath)
      (stack : List FPath) (fs : FS),
      (∀ x ∈ cs, goodNameB x.2.1 = true) →
      FolderForge.ffLoop dest false (cs.map flatLine) (i + 1) base stack fs =
        Start.stLoop dest false true (cs.map flatLine) base stack fs := by
  intro cs
  induction cs with
  | nil =>
    intro i base stack fs _
    rfl
  | cons x cs ih =>
    intro i base stack fs hgood
    have hx := hgood x (List.mem_cons_self x cs)
    have hcs : ∀ y ∈ cs, goodNameB y.2.1 = true :=
      fun y hy => hgood y (List.mem_cons_of_mem x hy)
    simp only [List.map_cons, FolderForge.ffLoop, Start.stLoop]
    rw [flatLine_rstrip hx, if_neg (flatLine_ne_empty x), ffParseLine_flat hx,
      parse_line_flat hx]
    dsimp only
    rw [if_neg (show ¬ ((decide (i + 1 = 0) && !false && x.2.2) = true) from by simp)]
    rw [if_neg (show ¬ ((false && true) = true) from by simp)]
    rw [if_neg (show ¬ (0 > stack.length) from by omega)]
    rw [if_neg (show ¬ (0 > stack.length) from by omega)]
    simp only [show ((0 : Nat) = 0) = True from by simp, if_true]
    by_cases hd : x.2.2 = true
    · rw [if_pos hd, if_pos hd]
      cases hm : mkdirp fs (base ++ [x.2.1]) with
      | none => rfl
      | some fs2 =>
        exact ih (i + 1) base _ fs2 hcs
    · rw [if_neg hd, if_neg hd]
      cases hm : mkdirp fs ((base ++ [x.2.1]).dropLast) with
      | none => rfl
      | some fs2 =>
        dsimp only
        cases ht : touchA fs2 (base ++ [x.2.1]) with
        | none => rfl
        | some fs3 =>
          exact ih (i + 1) base _ fs3 hcs

theorem root_line_rstrip (r : String) :
    pyRstrip (r ++ "/") = r ++ "/" := by
  have := rstrip_fix_of_last (l := (r ++ "/").data) (by
    intro c hc
    rw [root_line_data, List.getLast?_concat] at hc
    cases hc
    decide)
  simpa using this

theorem root_line_ne_empty (r : String) : ¬ ((r ++ "/" : String) = "") := by
  intro hcontra
  have hd : (r ++ "/").data = [] := by rw [hcontra]
  rw [root_line_data] at hd
  simp at hd

/-- C10: the two materialisers are not equivalent in general (see the
counterexample), but they do agree on every flat artifact: a root line
made of word characters followed by depth-0 entry lines whose names are
non-empty, slash-free and neither start nor end in whitespace.  Without
strip-root, both create the same filesystem. -/
theorem c10_equiv_amended (dest : FPath) (fs : FS) (r : String)
    (cs : List (Bool × String × Bool))
    (hr : goodRootB r = true)
    (hcs : ∀ x ∈ cs, goodNameB x.2.1 = true) :
    FolderForge.create_structure_from_file ((r ++ "/") :: cs.map flatLine) dest false fs =
      Start.create_structure_from_file ((r ++ "/") :: cs.map flatLine) dest false fs := by
  have hps := parse_line_root hr
  have hpf := ffParseLine_root hr
  unfold FolderForge.create_structure_from_file Start.create_structure_from_file
  dsimp only
  rw [hps]
  dsimp only
  simp only [FolderForge.ffLoop, Start.stLoop]
  rw [root_line_rstrip r, if_neg (root_line_ne_empty r), hpf, hps]
  dsimp only
  rw [if_pos (show (decide True && !false && true) = true from by decide)]
  rw [if_pos (show (true && true) = true from rfl)]
  rw [if_pos (show (!false) = true from rfl)]
  cases hm : mkdirp fs (dest ++ [r]) with
  | none => rfl
  | some fs2 =>
    exact flat_loop_eq dest cs 0 (dest ++ [r]) ([] ++ [dest ++ [r]]) fs2 hcs

theorem c10_equiv_witness :
    goodRootB "r" = true ∧
    (∀ x ∈ ([(false, "a", true), (true, "b.txt", false)] :
        List (Bool × String × Bool)), goodNameB x.2.1 = true) ∧
    FolderForge.create_structure_from_file
        (("r" ++ "/") :: ([(false, "a", true), (true, "b.txt", false)] :
          List (Bool × String × Bool)).map flatLine) [] false [] =
      Start.create_structure_from_file
        (("r" ++ "/") :: ([(false, "a", true), (true, "b.txt", false)] :
          List (Bool × String × Bool)).map flatLine) [] false [] :=
  ⟨by decide, by decide,
    c10_equiv_amended [] [] "r" [(false, "a", true), (true, "b.txt", false)]
      (by decide) (by decide)⟩
